import Mathlib

/-!
Verification of the openauction secure bid processing core.

Shallow embedding of the openauction repository's enclave core:
the replay-protection token manager (`enclave/tokenmanager.go`),
the auction ranking algorithm (`core/auctionranking.go`),
the bid decryption/filter pipeline (modelled from the specification where
the source file is absent), and the hybrid RSA-OAEP + AES-256-GCM
encryption scheme (`enclave/crypto.go`, `enclave/testcryptoutils.go`).

Machine integers are modelled as `Nat`; float64 prices as `Rat`;
byte strings as `List Nat` with an explicit `< 256` bound where it matters.
-/

namespace OpenAuction

/-! Token manager (enclave/tokenmanager.go).

`TokenManager.tokens` is a `sync.Map` from token identifier to
`*AuctionToken`.  We embed the map contents as an association list;
the well-formedness predicate `WFStore` states that keys are unique,
which `sync.Map` guarantees.  `sync.Map.LoadAndDelete` is a single
atomic step, so a concurrent execution of `ValidateAndConsumeToken`
calls is equivalent to some sequential order of those atomic steps. -/

structure AuctionToken where
  tokenID : String
  createdAt : Nat
deriving Repr, DecidableEq

/-- Contents of the `sync.Map` in `TokenManager`. -/
abbrev TokenStore := List (String × AuctionToken)

/-- Keys of the store are unique (a `sync.Map` is a map). -/
def WFStore (s : TokenStore) : Prop := (s.map Prod.fst).Nodup

instance (s : TokenStore) : Decidable (WFStore s) := by
  unfold WFStore; infer_instance

/-- `sync.Map.Load`: lock-free read. -/
def storeLoad (s : TokenStore) (k : String) : Option AuctionToken :=
  (s.find? (fun p => p.1 = k)).map Prod.snd

/-- `sync.Map.LoadAndDelete`: atomically reads and removes the entry for `k`,
returning whether it was present, together with the new contents. -/
def storeLoadAndDelete (s : TokenStore) (k : String) : Bool × TokenStore :=
  ((s.find? (fun p => p.1 = k)).isSome, s.filter (fun p => ¬ p.1 = k))

/-- `TokenManager.ValidateToken`. -/
def ValidateToken (s : TokenStore) (tokenID : String) : Bool :=
  if tokenID = "" then false
  else (storeLoad s tokenID).isSome

/-- `TokenManager.ValidateAndConsumeToken`: returns the boolean result and
the store contents afterwards. -/
def ValidateAndConsumeToken (s : TokenStore) (tokenID : String) :
    Bool × TokenStore :=
  if tokenID = "" then (false, s)
  else storeLoadAndDelete s tokenID

/-- `TokenManager.ConsumeToken`. -/
def ConsumeToken (s : TokenStore) (tokenID : String) : TokenStore :=
  s.filter (fun p => ¬ p.1 = tokenID)

/-- `TokenManager.Count`: number of live entries. -/
def Count (s : TokenStore) : Nat := s.length

/-- A token identifier is present in the store. -/
def PresentIn (s : TokenStore) (tokenID : String) : Prop :=
  ∃ tok, (tokenID, tok) ∈ s

instance (s : TokenStore) (t : String) : Decidable (PresentIn s t) := by
  unfold PresentIn
  exact decidable_of_iff (∃ p ∈ s, p.1 = t ∧ True)
    (by
      constructor
      · rintro ⟨⟨a, b⟩, hm, rfl, -⟩
        exact ⟨b, hm⟩
      · rintro ⟨tok, hm⟩
        exact ⟨(t, tok), hm, rfl, trivial⟩)

/-- `N` sequential invocations of `ValidateAndConsumeToken` on the same
identifier.  Each call is one atomic `LoadAndDelete` step, so every
interleaving of `N` concurrent callers is equivalent to this sequence. -/
def runCallers (s : TokenStore) (t : String) : Nat → List Bool × TokenStore
  | 0 => ([], s)
  | n + 1 =>
    let r := ValidateAndConsumeToken s t
    let rest := runCallers r.2 t n
    (r.1 :: rest.1, rest.2)

lemma find?_isSome_iff_present (s : TokenStore) (t : String) :
    (s.find? (fun p => p.1 = t)).isSome = true ↔ PresentIn s t := by
  rw [List.find?_isSome]
  constructor
  · rintro ⟨⟨a, b⟩, hm, he⟩
    simp only [decide_eq_true_eq] at he
    exact ⟨b, he ▸ hm⟩
  · rintro ⟨tok, hm⟩
    exact ⟨(t, tok), hm, by simp⟩

lemma not_present_after_consume (s : TokenStore) (t : String) :
    ¬ PresentIn (s.filter (fun p => ¬ p.1 = t)) t := by
  rintro ⟨tok, hm⟩
  have := List.of_mem_filter hm
  simp at this

lemma filter_eq_self_of_not_present (s : TokenStore) (t : String)
    (h : ¬ PresentIn s t) : s.filter (fun p => ¬ p.1 = t) = s := by
  apply List.filter_eq_self.mpr
  rintro ⟨a, b⟩ hm
  simp only [decide_eq_true_eq]
  intro he
  exact h ⟨b, he ▸ hm⟩

lemma consume_length (s : TokenStore) (t : String)
    (hwf : WFStore s) (hp : PresentIn s t) :
    (s.filter (fun p => ¬ p.1 = t)).length = s.length - 1 := by
  induction s with
  | nil => rcases hp with ⟨tok, hm⟩; cases hm
  | cons hd tl ih =>
    rcases hp with ⟨tok, hm⟩
    rcases List.mem_cons.mp hm with heq | htl
    · -- the head is the entry for t; the tail has no entry for t
      subst heq
      have hnotl : ¬ PresentIn tl t := by
        rintro ⟨tok', hm'⟩
        have : t ∈ tl.map Prod.fst := List.mem_map.mpr ⟨(t, tok'), hm', rfl⟩
        simp only [WFStore, List.map_cons, List.nodup_cons] at hwf
        exact hwf.1 this
      have hstep : List.filter (fun p => decide ¬ p.1 = t) ((t, tok) :: tl)
          = List.filter (fun p => decide ¬ p.1 = t) tl := by
        simp [List.filter_cons]
      rw [hstep, filter_eq_self_of_not_present tl t hnotl]
      simp
    · by_cases hhd : hd.1 = t
      · -- head also keyed t: impossible beside htl given nodup
        exfalso
        simp only [WFStore, List.map_cons, List.nodup_cons] at hwf
        exact hwf.1 (hhd ▸ List.mem_map.mpr ⟨(t, tok), htl, rfl⟩)
      · have hwf' : WFStore tl := by
          simp only [WFStore, List.map_cons, List.nodup_cons] at hwf
          exact hwf.2
        have hlen := ih hwf' ⟨tok, htl⟩
        have hlen0 : 1 ≤ tl.length := by
          cases tl with
          | nil => cases htl
          | cons a l => simp
        have hstep : List.filter (fun p => decide ¬ p.1 = t) (hd :: tl)
            = hd :: List.filter (fun p => decide ¬ p.1 = t) tl := by
          simp [List.filter_cons, hhd]
        rw [hstep]
        simp only [List.length_cons, hlen]
        omega

lemma validateAndConsume_absent (s : TokenStore) (t : String)
    (h : ¬ PresentIn s t) : ValidateAndConsumeToken s t = (false, s) := by
  unfold ValidateAndConsumeToken storeLoadAndDelete
  by_cases ht : t = ""
  · simp [ht]
  · simp only [ht, if_false]
    rw [filter_eq_self_of_not_present s t h]
    have : (s.find? (fun p => p.1 = t)).isSome = false := by
      rw [Bool.eq_false_iff]
      intro hc
      exact h ((find?_isSome_iff_present s t).mp hc)
    rw [this]

lemma runCallers_absent (s : TokenStore) (t : String) (h : ¬ PresentIn s t) :
    ∀ m, runCallers s t m = (List.replicate m false, s) := by
  intro m
  induction m with
  | zero => rfl
  | succ k ih =>
    simp only [runCallers, validateAndConsume_absent s t h, ih, List.replicate_succ]

/-- C1: `ValidateAndConsumeToken t` returns true iff `t` is non-empty and
present in the store; when it returns true the entry for `t` has been
removed, and a second call with the same `t` returns false. -/
theorem validateAndConsume_exactly_once (s : TokenStore) (t : String) :
    ((ValidateAndConsumeToken s t).1 = true ↔ t ≠ "" ∧ PresentIn s t)
    ∧ ((ValidateAndConsumeToken s t).1 = true →
        ¬ PresentIn (ValidateAndConsumeToken s t).2 t)
    ∧ ((ValidateAndConsumeToken s t).1 = true →
        (ValidateAndConsumeToken (ValidateAndConsumeToken s t).2 t).1 = false) := by
  by_cases ht : t = ""
  · subst ht
    simp [ValidateAndConsumeToken]
  · have hfst : (ValidateAndConsumeToken s t).1
        = (s.find? (fun p => p.1 = t)).isSome := by
      simp [ValidateAndConsumeToken, storeLoadAndDelete, ht]
    have hsnd : (ValidateAndConsumeToken s t).2
        = s.filter (fun p => ¬ p.1 = t) := by
      simp [ValidateAndConsumeToken, storeLoadAndDelete, ht]
    refine ⟨?_, ?_, ?_⟩
    · rw [hfst, find?_isSome_iff_present]
      exact ⟨fun h => ⟨ht, h⟩, fun h => h.2⟩
    · intro _
      rw [hsnd]
      exact not_present_after_consume s t
    · intro _
      have habs : ¬ PresentIn (ValidateAndConsumeToken s t).2 t := by
        rw [hsnd]; exact not_present_after_consume s t
      rw [validateAndConsume_absent _ t habs]

/-- Witness for C1 at a concrete one-entry store. -/
theorem validateAndConsume_exactly_once_witness :
    (ValidateAndConsumeToken [("tok", ⟨"tok", 0⟩)] "tok").1 = true
    ∧ ¬ PresentIn (ValidateAndConsumeToken [("tok", ⟨"tok", 0⟩)] "tok").2 "tok"
    ∧ (ValidateAndConsumeToken
        (ValidateAndConsumeToken [("tok", ⟨"tok", 0⟩)] "tok").2 "tok").1 = false :=
  ⟨by decide,
   (validateAndConsume_exactly_once [("tok", ⟨"tok", 0⟩)] "tok").2.1 (by decide),
   (validateAndConsume_exactly_once [("tok", ⟨"tok", 0⟩)] "tok").2.2 (by decide)⟩

/-- C10: calling `ValidateAndConsumeToken` with the empty identifier returns
false and leaves the store completely unchanged (the guard returns before
`LoadAndDelete` runs, so even an empty-string entry would not be removed). -/
theorem validateAndConsume_empty_unchanged (s : TokenStore) :
    ValidateAndConsumeToken s "" = (false, s) := by
  simp [ValidateAndConsumeToken]

/-- C2: `ValidateAndConsumeToken` is a single atomic `sync.Map.LoadAndDelete`
step, so every interleaving of N concurrent callers on the same identifier
is equivalent to N sequential atomic calls.  For every store with unique
keys containing the token, and every N ≥ 1, exactly one of the N results is
true and the store's count drops by exactly 1. -/
theorem validateAndConsume_concurrent (s : TokenStore) (t : String) (n : Nat)
    (hwf : WFStore s) (ht : t ≠ "") (hp : PresentIn s t) (hn : 1 ≤ n) :
    (runCallers s t n).1.count true = 1
    ∧ Count (runCallers s t n).2 = Count s - 1 := by
  obtain ⟨m, rfl⟩ : ∃ m, n = m + 1 := ⟨n - 1, by omega⟩
  have hfst : (ValidateAndConsumeToken s t).1 = true := by
    simp only [ValidateAndConsumeToken, storeLoadAndDelete, ht, if_false]
    exact (find?_isSome_iff_present s t).mpr hp
  have hsnd : (ValidateAndConsumeToken s t).2
      = s.filter (fun p => ¬ p.1 = t) := by
    simp [ValidateAndConsumeToken, storeLoadAndDelete, ht]
  have habs : ¬ PresentIn (ValidateAndConsumeToken s t).2 t := by
    rw [hsnd]; exact not_present_after_consume s t
  have hrest := runCallers_absent _ t habs m
  constructor
  · simp only [runCallers, hrest, hfst, List.count_cons]
    simp [List.count_replicate]
  · simp only [runCallers, hrest]
    simp only [Count, hsnd]
    exact consume_length s t hwf hp

/-- Witness for C2: three concurrent callers on a one-entry store. -/
theorem validateAndConsume_concurrent_witness :
    WFStore [("tok", ⟨"tok", 0⟩)] ∧ "tok" ≠ "" ∧ PresentIn [("tok", ⟨"tok", 0⟩)] "tok"
    ∧ 1 ≤ 3
    ∧ ((runCallers [("tok", ⟨"tok", 0⟩)] "tok" 3).1.count true = 1
       ∧ Count (runCallers [("tok", ⟨"tok", 0⟩)] "tok" 3).2
         = Count [("tok", ⟨"tok", 0⟩)] - 1) :=
  ⟨by decide, by decide, by decide, by decide,
   validateAndConsume_concurrent [("tok", ⟨"tok", 0⟩)] "tok" 3
     (by decide) (by decide) (by decide) (by decide)⟩

/-! Auction ranking (core/auctionranking.go).

`RankCoreBids` groups bids by bidder in a Go map (`bidderMap`), iterates the
map (randomized order, modelled by the parameter `ord`), sorts by strictly
descending price with `sort.Slice`, and assigns ranks 1..N. -/

structure CoreBid where
  id : String
  bidder : String
  price : Rat
  currency : String := ""
  dealID : String := ""
  bidType : String := ""
deriving Repr, DecidableEq

structure CoreRankingResult where
  ranks : List (String × Nat)
  highestBids : List (String × CoreBid)
  sortedBidders : List String
deriving Repr, DecidableEq

/-- Go map read `m[k]`, on an association-list representation of the map. -/
def mapFind {α : Type} (m : List (String × α)) (k : String) : Option α :=
  (m.find? (fun p => p.1 = k)).map Prod.snd

/-- Go map assignment `m[k] = v`: replaces the entry in place when the key
is present, otherwise adds a fresh entry. -/
def mapInsert {α : Type} (m : List (String × α)) (k : String) (v : α) :
    List (String × α) :=
  if (m.find? (fun p => p.1 = k)).isSome
  then m.map (fun p => if p.1 = k then (k, v) else p)
  else m ++ [(k, v)]

/-- One iteration of the grouping loop of `RankCoreBids`:
`if !exists || bid.Price > existing.Price { bidderMap[bid.Bidder] = bid }`. -/
def rankStep (m : List (String × CoreBid)) (bid : CoreBid) :
    List (String × CoreBid) :=
  match mapFind m bid.bidder with
  | none => mapInsert m bid.bidder bid
  | some existing =>
      if bid.price > existing.price then mapInsert m bid.bidder bid else m

/-- The `bidderMap` of `RankCoreBids` after the grouping loop. -/
def buildBidderMap (bids : List CoreBid) : List (String × CoreBid) :=
  bids.foldl rankStep []

/-- Key set of the bidder map. -/
def bidderKeys (bids : List CoreBid) : List String :=
  (buildBidderMap bids).map Prod.fst

/-- Go map iteration (`for bidder, bid := range bidderMap`) yields the
entries in an unspecified, run-dependent order; `ord` names that order, and
`ValidOrder` says it enumerates each key exactly once. -/
def ValidOrder (bids : List CoreBid) (ord : List String) : Prop :=
  ord.Perm (bidderKeys bids)

instance (bids : List CoreBid) (ord : List String) :
    Decidable (ValidOrder bids ord) := by
  unfold ValidOrder; infer_instance

/-- The `entries` slice of `RankCoreBids`, built by ranging over the map in
the order `ord`. -/
def entriesFor (m : List (String × CoreBid)) (ord : List String) :
    List (String × CoreBid) :=
  ord.filterMap (fun b => (mapFind m b).map (fun bid => (b, bid)))

/-- The comparator of `sort.Slice`: entry `e` may precede `f` when `e`'s
retained price is at least `f`'s (descending order; the relative order of
price ties is not specified by `sort.Slice` and is inherited from `ord`). -/
def sortEntries (l : List (String × CoreBid)) : List (String × CoreBid) :=
  l.insertionSort (fun e f => f.2.price ≤ e.2.price)

/-- `RankCoreBids`, with the Go map iteration order made explicit as `ord`. -/
def RankCoreBidsWith (bids : List CoreBid) (ord : List String) :
    CoreRankingResult :=
  if bids = [] then ⟨[], [], []⟩
  else
    let entries := sortEntries (entriesFor (buildBidderMap bids) ord)
    { ranks := entries.enum.map (fun p => (p.2.1, p.1 + 1))
      highestBids := entries
      sortedBidders := entries.map Prod.fst }

/-- The per-bidder retained bid: keep the bid with the strictly highest
price seen so far; the first-encountered wins an exact tie. -/
def pickStep (acc : Option CoreBid) (bid : CoreBid) : Option CoreBid :=
  match acc with
  | none => some bid
  | some e => if bid.price > e.price then some bid else some e

def pickFirstMax (bs : List CoreBid) : Option CoreBid :=
  bs.foldl pickStep none

lemma mapFind_cons {α : Type} (hd : String × α) (tl : List (String × α))
    (k : String) :
    mapFind (hd :: tl) k = if hd.1 = k then some hd.2 else mapFind tl k := by
  unfold mapFind
  by_cases h : hd.1 = k
  · rw [List.find?_cons_of_pos _ (by simpa using h), if_pos h]
    rfl
  · rw [List.find?_cons_of_neg _ (by simpa using h), if_neg h]

lemma mapFind_replace_other {α : Type} (m : List (String × α))
    (k k' : String) (v : α) (h : k' ≠ k) :
    mapFind (m.map (fun p => if p.1 = k then (k, v) else p)) k'
      = mapFind m k' := by
  induction m with
  | nil => rfl
  | cons hd tl ih =>
    simp only [List.map_cons]
    rw [mapFind_cons, mapFind_cons hd tl k', ih]
    by_cases hh : hd.1 = k
    · rw [if_pos hh]
      have hk : ¬ ((k, v) : String × α).1 = k' := by simpa using Ne.symm h
      have hk2 : ¬ hd.1 = k' := by rw [hh]; exact Ne.symm h
      rw [if_neg hk, if_neg hk2]
    · rw [if_neg hh]

lemma mapFind_append_other {α : Type} (m : List (String × α))
    (k k' : String) (v : α) (h : k' ≠ k) :
    mapFind (m ++ [(k, v)]) k' = mapFind m k' := by
  induction m with
  | nil =>
    simp only [List.nil_append]
    rw [mapFind_cons, if_neg (by simpa using Ne.symm h)]
  | cons hd tl ih =>
    simp only [List.cons_append]
    rw [mapFind_cons, mapFind_cons hd tl k', ih]

lemma mapFind_mapInsert_other {α : Type} (m : List (String × α))
    (k k' : String) (v : α) (h : k' ≠ k) :
    mapFind (mapInsert m k v) k' = mapFind m k' := by
  unfold mapInsert
  by_cases hc : (m.find? (fun p => p.1 = k)).isSome = true
  · rw [if_pos hc]
    exact mapFind_replace_other m k k' v h
  · rw [if_neg hc]
    exact mapFind_append_other m k k' v h

lemma mapFind_mapInsert_self {α : Type} (m : List (String × α))
    (k : String) (v : α) :
    mapFind (mapInsert m k v) k = some v := by
  unfold mapInsert
  by_cases hc : (m.find? (fun p => p.1 = k)).isSome = true
  · rw [if_pos hc]
    induction m with
    | nil => simp [mapFind] at hc
    | cons hd tl ih =>
      simp only [List.map_cons]
      by_cases hh : hd.1 = k
      · rw [if_pos hh, mapFind_cons]
        simp
      · rw [if_neg hh, mapFind_cons, if_neg hh]
        apply ih
        rw [List.find?_cons_of_neg _ (by simpa using hh)] at hc
        exact hc
  · rw [if_neg hc]
    induction m with
    | nil => simp [mapFind]
    | cons hd tl ih =>
      have hh : ¬ hd.1 = k := by
        intro he
        exact hc (by rw [List.find?_cons_of_pos _ (by simpa using he)]; rfl)
      simp only [List.cons_append]
      rw [mapFind_cons, if_neg hh]
      apply ih
      rw [List.find?_cons_of_neg _ (by simpa using hh)] at hc
      exact hc

lemma mapFind_rankStep_same (m : List (String × CoreBid)) (bid : CoreBid) :
    mapFind (rankStep m bid) bid.bidder
      = pickStep (mapFind m bid.bidder) bid := by
  cases h : mapFind m bid.bidder with
  | none => simp only [rankStep, pickStep, h, mapFind_mapInsert_self]
  | some e =>
    by_cases hp : bid.price > e.price
    · simp only [rankStep, pickStep, h, if_pos hp, mapFind_mapInsert_self]
    · simp only [rankStep, pickStep, h, if_neg hp]

lemma mapFind_rankStep_other (m : List (String × CoreBid)) (bid : CoreBid)
    (b : String) (h : bid.bidder ≠ b) :
    mapFind (rankStep m bid) b = mapFind m b := by
  cases hm : mapFind m bid.bidder with
  | none =>
    simp only [rankStep, hm]
    exact mapFind_mapInsert_other m bid.bidder b bid (Ne.symm h)
  | some e =>
    by_cases hp : bid.price > e.price
    · simp only [rankStep, hm, if_pos hp]
      exact mapFind_mapInsert_other m bid.bidder b bid (Ne.symm h)
    · simp only [rankStep, hm, if_neg hp]

lemma buildLoop_find (l : List CoreBid) :
    ∀ (m : List (String × CoreBid)) (b : String),
      mapFind (l.foldl rankStep m) b
        = (l.filter (fun x => x.bidder = b)).foldl pickStep (mapFind m b) := by
  induction l with
  | nil => intro m b; rfl
  | cons hd tl ih =>
    intro m b
    simp only [List.foldl_cons, List.filter_cons]
    by_cases hb : hd.bidder = b
    · rw [if_pos (by simpa using hb)]
      rw [ih]
      simp only [List.foldl_cons]
      rw [← hb, mapFind_rankStep_same]
    · rw [if_neg (by simpa using hb)]
      rw [ih]
      rw [mapFind_rankStep_other m hd b hb]

/-- The retained bid for bidder `b` in the grouping map is `pickFirstMax`
over `b`'s bids in input order. -/
lemma buildBidderMap_find (bids : List CoreBid) (b : String) :
    mapFind (buildBidderMap bids) b
      = pickFirstMax (bids.filter (fun x => x.bidder = b)) := by
  unfold buildBidderMap pickFirstMax
  rw [buildLoop_find]
  rfl

lemma pickFirstMax_go (tl : List CoreBid) :
    ∀ (a : CoreBid), ∃ r, tl.foldl pickStep (some a) = some r
      ∧ (∀ x ∈ a :: tl, x.price ≤ r.price)
      ∧ (a :: tl).find? (fun x => r.price ≤ x.price) = some r := by
  induction tl with
  | nil =>
    intro a
    refine ⟨a, rfl, ?_, ?_⟩
    · intro x hx
      rw [List.mem_singleton] at hx
      exact hx ▸ le_refl a.price
    · rw [List.find?_cons_of_pos _ (by simp)]
  | cons hd tl2 ih =>
    intro a
    simp only [List.foldl_cons]
    by_cases hgt : a.price < hd.price
    · have hstep : pickStep (some a) hd = some hd := by
        simp only [pickStep]
        rw [if_pos hgt]
      rw [hstep]
      obtain ⟨r, hr, hmax, hfind⟩ := ih hd
      have hhdr : hd.price ≤ r.price := hmax hd (List.mem_cons_self hd tl2)
      refine ⟨r, hr, ?_, ?_⟩
      · intro x hx
        rcases List.mem_cons.mp hx with rfl | hx2
        · exact le_trans (le_of_lt hgt) hhdr
        · exact hmax x hx2
      · have hra : ¬ (r.price ≤ a.price) :=
          not_le.mpr (lt_of_lt_of_le hgt hhdr)
        rw [List.find?_cons_of_neg _ (by simpa using hra)]
        exact hfind
    · have hstep : pickStep (some a) hd = some a := by
        simp only [pickStep]
        rw [if_neg hgt]
      rw [hstep]
      obtain ⟨r, hr, hmax, hfind⟩ := ih a
      have har : a.price ≤ r.price := hmax a (List.mem_cons_self a tl2)
      refine ⟨r, hr, ?_, ?_⟩
      · intro x hx
        rcases List.mem_cons.mp hx with rfl | hx2
        · exact har
        · rcases List.mem_cons.mp hx2 with rfl | hx3
          · exact le_trans (not_lt.mp hgt) har
          · exact hmax x (List.mem_cons.mpr (Or.inr hx3))
      · by_cases hpa : r.price ≤ a.price
        · rw [List.find?_cons_of_pos _ (by simpa using hpa)]
          rw [List.find?_cons_of_pos _ (by simpa using hpa)] at hfind
          exact hfind
        · rw [List.find?_cons_of_neg _ (by simpa using hpa)] at hfind
          rw [List.find?_cons_of_neg _ (by simpa using hpa)]
          have hphd : ¬ (r.price ≤ hd.price) :=
            not_le.mpr (lt_of_le_of_lt (not_lt.mp hgt) (not_le.mp hpa))
          rw [List.find?_cons_of_neg _ (by simpa using hphd)]
          exact hfind

/-- `pickFirstMax` of a nonempty list returns a maximal-price element, and
precisely the first element of the list whose price attains the maximum. -/
lemma pickFirstMax_spec (bs : List CoreBid) (hne : bs ≠ []) :
    ∃ r, pickFirstMax bs = some r
      ∧ (∀ x ∈ bs, x.price ≤ r.price)
      ∧ bs.find? (fun x => r.price ≤ x.price) = some r := by
  cases bs with
  | nil => exact absurd rfl hne
  | cons a tl =>
    obtain ⟨r, hr, hmax, hfind⟩ := pickFirstMax_go tl a
    refine ⟨r, ?_, hmax, hfind⟩
    show tl.foldl pickStep (pickStep none a) = some r
    exact hr

lemma mapFind_isSome_eq {α : Type} (m : List (String × α)) (k : String) :
    (mapFind m k).isSome = (m.find? (fun p => p.1 = k)).isSome := by
  unfold mapFind
  cases m.find? (fun p => p.1 = k) <;> rfl

lemma find?_isSome_iff_mem_keys {α : Type} (m : List (String × α))
    (k : String) :
    (m.find? (fun p => p.1 = k)).isSome = true ↔ k ∈ m.map Prod.fst := by
  rw [List.find?_isSome]
  constructor
  · rintro ⟨p, hp, he⟩
    simp only [decide_eq_true_eq] at he
    exact List.mem_map.mpr ⟨p, hp, he⟩
  · intro hk
    obtain ⟨p, hp, he⟩ := List.mem_map.mp hk
    exact ⟨p, hp, by simpa using he⟩

lemma mapInsert_keys_present {α : Type} (m : List (String × α)) (k : String)
    (v : α) (h : (m.find? (fun p => p.1 = k)).isSome = true) :
    (mapInsert m k v).map Prod.fst = m.map Prod.fst := by
  unfold mapInsert
  rw [if_pos h, List.map_map]
  apply List.map_congr_left
  intro p _
  by_cases hh : p.1 = k
  · simp [hh]
  · simp [hh]

lemma mapInsert_keys_absent {α : Type} (m : List (String × α)) (k : String)
    (v : α) (h : ¬ (m.find? (fun p => p.1 = k)).isSome = true) :
    (mapInsert m k v).map Prod.fst = m.map Prod.fst ++ [k] := by
  unfold mapInsert
  rw [if_neg h]
  simp

lemma rankStep_keys_nodup (m : List (String × CoreBid)) (bid : CoreBid)
    (h : (m.map Prod.fst).Nodup) :
    ((rankStep m bid).map Prod.fst).Nodup := by
  by_cases hpres : (m.find? (fun p => p.1 = bid.bidder)).isSome = true
  · have hfind : (mapFind m bid.bidder).isSome = true := by
      rw [mapFind_isSome_eq]; exact hpres
    obtain ⟨e, he⟩ := Option.isSome_iff_exists.mp hfind
    by_cases hp : bid.price > e.price
    · simp only [rankStep, he, if_pos hp]
      rw [mapInsert_keys_present m bid.bidder bid hpres]
      exact h
    · simp only [rankStep, he, if_neg hp]
      exact h
  · have hfind : mapFind m bid.bidder = none := by
      cases hf : mapFind m bid.bidder with
      | none => rfl
      | some e =>
        exfalso
        apply hpres
        rw [← mapFind_isSome_eq, hf]
        rfl
    simp only [rankStep, hfind]
    rw [mapInsert_keys_absent m bid.bidder bid hpres]
    have hk : bid.bidder ∉ m.map Prod.fst :=
      fun hc => hpres ((find?_isSome_iff_mem_keys m bid.bidder).mpr hc)
    simp only [List.nodup_append, List.nodup_cons, List.not_mem_nil,
      List.nodup_nil, and_true, not_false_iff, true_and, h]
    intro a ha
    simp only [List.mem_singleton]
    intro hc
    exact hk (hc ▸ ha)

lemma buildBidderMap_keys_nodup (bids : List CoreBid) :
    (bidderKeys bids).Nodup := by
  unfold bidderKeys buildBidderMap
  suffices h : ∀ (m : List (String × CoreBid)), (m.map Prod.fst).Nodup →
      ((bids.foldl rankStep m).map Prod.fst).Nodup by
    exact h [] (by simp)
  induction bids with
  | nil => intro m hm; exact hm
  | cons hd tl ih =>
    intro m hm
    exact ih (rankStep m hd) (rankStep_keys_nodup m hd hm)

lemma pickFirstMax_eq_none_iff (bs : List CoreBid) :
    pickFirstMax bs = none ↔ bs = [] := by
  constructor
  · intro h
    cases bs with
    | nil => rfl
    | cons a tl =>
      obtain ⟨r, hr, -, -⟩ := pickFirstMax_go tl a
      have : pickFirstMax (a :: tl) = some r := by
        show tl.foldl pickStep (pickStep none a) = some r
        exact hr
      rw [this] at h
      cases h
  · rintro rfl
    rfl

/-- A bidder has an entry in the grouping map iff it appears in the input. -/
lemma mem_bidderKeys (bids : List CoreBid) (b : String) :
    b ∈ bidderKeys bids ↔ b ∈ bids.map (fun x => x.bidder) := by
  unfold bidderKeys
  rw [← find?_isSome_iff_mem_keys, ← mapFind_isSome_eq, buildBidderMap_find]
  constructor
  · intro h
    obtain ⟨r, hr⟩ := Option.isSome_iff_exists.mp h
    have hne : bids.filter (fun x => x.bidder = b) ≠ [] := by
      intro hc
      rw [(pickFirstMax_eq_none_iff _).mpr hc] at hr
      cases hr
    obtain ⟨x, hx⟩ := List.exists_mem_of_ne_nil _ hne
    have := List.of_mem_filter hx
    simp only [decide_eq_true_eq] at this
    exact List.mem_map.mpr ⟨x, List.mem_of_mem_filter hx, this⟩
  · intro h
    obtain ⟨x, hx, hb⟩ := List.mem_map.mp h
    have hmem : x ∈ bids.filter (fun y => y.bidder = b) :=
      List.mem_filter.mpr ⟨hx, by simpa using hb⟩
    have hne : bids.filter (fun y => y.bidder = b) ≠ [] :=
      List.ne_nil_of_mem hmem
    obtain ⟨r, hr, -, -⟩ := pickFirstMax_spec _ hne
    rw [hr]
    rfl

lemma entriesFor_cons (m : List (String × CoreBid)) (k : String)
    (ord : List String) :
    entriesFor m (k :: ord)
      = ((mapFind m k).map (fun bid => (k, bid))).toList ++ entriesFor m ord := by
  unfold entriesFor
  rw [List.filterMap_cons]
  cases mapFind m k <;> rfl

lemma entriesFor_keys (m : List (String × CoreBid)) (ord : List String)
    (hall : ∀ k ∈ ord, (mapFind m k).isSome = true) :
    (entriesFor m ord).map Prod.fst = ord := by
  induction ord with
  | nil => rfl
  | cons k rest ih =>
    obtain ⟨v, hv⟩ := Option.isSome_iff_exists.mp (hall k (List.mem_cons_self k rest))
    rw [entriesFor_cons, hv,
      show (Option.map (fun bid => (k, bid)) (some v)).toList = [(k, v)]
        from rfl,
      List.singleton_append, List.map_cons]
    rw [ih (fun x hx => hall x (List.mem_cons.mpr (Or.inr hx)))]

lemma mem_entriesFor (m : List (String × CoreBid)) (ord : List String)
    (k : String) (v : CoreBid) :
    (k, v) ∈ entriesFor m ord ↔ k ∈ ord ∧ mapFind m k = some v := by
  induction ord with
  | nil =>
    rw [show entriesFor m [] = [] from rfl]
    constructor
    · intro h
      cases h
    · rintro ⟨h, -⟩
      cases h
  | cons a rest ih =>
    rw [entriesFor_cons]
    cases ha : mapFind m a with
    | none =>
      rw [show (Option.map (fun bid => (a, bid)) (none : Option CoreBid)).toList
          = [] from rfl, List.nil_append, ih, List.mem_cons]
      constructor
      · rintro ⟨hk, hv⟩
        exact ⟨Or.inr hk, hv⟩
      · rintro ⟨hk | hk, hv⟩
        · rw [hk] at hv; rw [hv] at ha; cases ha
        · exact ⟨hk, hv⟩
    | some w =>
      rw [show (Option.map (fun bid => (a, bid)) (some w)).toList
          = [(a, w)] from rfl, List.singleton_append, List.mem_cons, ih,
        List.mem_cons]
      constructor
      · rintro (he | ⟨hk, hv⟩)
        · rcases Prod.mk.injEq .. ▸ he with ⟨rfl, rfl⟩
          exact ⟨Or.inl rfl, ha⟩
        · exact ⟨Or.inr hk, hv⟩
      · rintro ⟨hk | hk, hv⟩
        · subst hk
          rw [ha] at hv
          cases hv
          exact Or.inl rfl
        · exact Or.inr ⟨hk, hv⟩

lemma mapFind_eq_some_iff_mem {α : Type} (l : List (String × α))
    (hnd : (l.map Prod.fst).Nodup) (k : String) (v : α) :
    mapFind l k = some v ↔ (k, v) ∈ l := by
  induction l with
  | nil =>
    constructor
    · intro h; cases h
    · intro h; cases h
  | cons hd tl ih =>
    simp only [List.map_cons, List.nodup_cons] at hnd
    rw [mapFind_cons, List.mem_cons]
    by_cases hh : hd.1 = k
    · rw [if_pos hh]
      constructor
      · intro h
        cases h
        left
        rw [← hh]
      · rintro (he | hm)
        · rw [← he]
        · exfalso
          exact hnd.1 (hh ▸ List.mem_map.mpr ⟨(k, v), hm, rfl⟩)
    · rw [if_neg hh, ih hnd.2]
      constructor
      · exact Or.inr
      · rintro (he | hm)
        · exfalso
          exact hh (by rw [← he])
        · exact hm

lemma RankCoreBidsWith_eq (bids : List CoreBid) (ord : List String)
    (hne : bids ≠ []) :
    RankCoreBidsWith bids ord =
      { ranks := (sortEntries (entriesFor (buildBidderMap bids) ord)).enum.map
          (fun p => (p.2.1, p.1 + 1))
        highestBids := sortEntries (entriesFor (buildBidderMap bids) ord)
        sortedBidders :=
          (sortEntries (entriesFor (buildBidderMap bids) ord)).map Prod.fst } := by
  unfold RankCoreBidsWith
  rw [if_neg hne]

lemma validOrder_mem_isSome (bids : List CoreBid) (ord : List String)
    (hord : ValidOrder bids ord) :
    ∀ k ∈ ord, (mapFind (buildBidderMap bids) k).isSome = true := by
  intro k hk
  rw [mapFind_isSome_eq, find?_isSome_iff_mem_keys]
  exact hord.mem_iff.mp hk

lemma sortEntries_perm (l : List (String × CoreBid)) :
    (sortEntries l).Perm l :=
  List.perm_insertionSort _ l

lemma entries_nodup_keys (bids : List CoreBid) (ord : List String)
    (hord : ValidOrder bids ord) :
    ((sortEntries (entriesFor (buildBidderMap bids) ord)).map Prod.fst).Nodup := by
  have hordnd : ord.Nodup :=
    hord.nodup_iff.mpr (buildBidderMap_keys_nodup bids)
  have hkeys := entriesFor_keys _ ord (validOrder_mem_isSome bids ord hord)
  have hperm := (sortEntries_perm (entriesFor (buildBidderMap bids) ord)).map
    (f := Prod.fst)
  rw [hkeys] at hperm
  exact hperm.nodup_iff.mpr hordnd

/-- C4: for every bid list and bidder `b` appearing in it, the retained bid
`HighestBids[b]` is a bid of `b`, occurs in the input, has the maximal price
among `b`'s bids, and is the first bid of `b` in input order whose price
attains that maximum (first-encountered wins an exact tie: the `find?`
conjunct says no earlier bid of `b` has price ≥ r's). -/
theorem rank_highestBid_first_max (bids : List CoreBid) (ord : List String)
    (b : String) (hne : bids ≠ []) (hord : ValidOrder bids ord)
    (hb : b ∈ bids.map (fun x => x.bidder)) :
    ∃ r, mapFind (RankCoreBidsWith bids ord).highestBids b = some r
      ∧ r.bidder = b ∧ r ∈ bids
      ∧ (∀ x ∈ bids, x.bidder = b → x.price ≤ r.price)
      ∧ (bids.filter (fun x => x.bidder = b)).find?
          (fun x => r.price ≤ x.price) = some r := by
  have hbk : b ∈ bidderKeys bids := (mem_bidderKeys bids b).mpr hb
  have hfilne : bids.filter (fun x => x.bidder = b) ≠ [] := by
    obtain ⟨x, hx, hxb⟩ := List.mem_map.mp hb
    exact List.ne_nil_of_mem (List.mem_filter.mpr ⟨hx, by simpa using hxb⟩)
  obtain ⟨r, hr, hmax, hfind⟩ := pickFirstMax_spec _ hfilne
  have hrmem : r ∈ bids.filter (fun x => x.bidder = b) :=
    List.mem_of_find?_eq_some hfind
  have hrb : r.bidder = b := by
    have := List.of_mem_filter hrmem
    simpa using this
  have hmfind : mapFind (buildBidderMap bids) b = some r := by
    rw [buildBidderMap_find]
    exact hr
  have hbord : b ∈ ord := hord.mem_iff.mpr hbk
  have hment : (b, r) ∈ entriesFor (buildBidderMap bids) ord :=
    (mem_entriesFor _ ord b r).mpr ⟨hbord, hmfind⟩
  have hmsort : (b, r) ∈ sortEntries (entriesFor (buildBidderMap bids) ord) :=
    (sortEntries_perm _).mem_iff.mpr hment
  refine ⟨r, ?_, hrb, List.mem_of_mem_filter hrmem, ?_, hfind⟩
  · rw [RankCoreBidsWith_eq bids ord hne]
    exact (mapFind_eq_some_iff_mem _ (entries_nodup_keys bids ord hord) b r).mpr
      hmsort
  · intro x hx hxb
    exact hmax x (List.mem_filter.mpr ⟨hx, by simpa using hxb⟩)

/-- Witness for C4: two bids by the same bidder tied at the same price; the
first-encountered one is retained. -/
theorem rank_highestBid_first_max_witness :
    ([⟨"bid1", "A", 2, "", "", ""⟩, ⟨"bid2", "A", 2, "", "", ""⟩]
        : List CoreBid) ≠ []
    ∧ ValidOrder [⟨"bid1", "A", 2, "", "", ""⟩, ⟨"bid2", "A", 2, "", "", ""⟩]
        ["A"]
    ∧ "A" ∈ ([⟨"bid1", "A", 2, "", "", ""⟩,
        ⟨"bid2", "A", 2, "", "", ""⟩] : List CoreBid).map (fun x => x.bidder)
    ∧ ∃ r, mapFind (RankCoreBidsWith
          [⟨"bid1", "A", 2, "", "", ""⟩, ⟨"bid2", "A", 2, "", "", ""⟩]
          ["A"]).highestBids "A" = some r
        ∧ r.bidder = "A"
        ∧ r ∈ ([⟨"bid1", "A", 2, "", "", ""⟩,
            ⟨"bid2", "A", 2, "", "", ""⟩] : List CoreBid)
        ∧ (∀ x ∈ ([⟨"bid1", "A", 2, "", "", ""⟩,
            ⟨"bid2", "A", 2, "", "", ""⟩] : List CoreBid),
            x.bidder = "A" → x.price ≤ r.price)
        ∧ (([⟨"bid1", "A", 2, "", "", ""⟩,
            ⟨"bid2", "A", 2, "", "", ""⟩] : List CoreBid).filter
            (fun x => x.bidder = "A")).find?
            (fun x => r.price ≤ x.price) = some r :=
  ⟨by decide, by decide, by decide,
   rank_highestBid_first_max
     [⟨"bid1", "A", 2, "", "", ""⟩, ⟨"bid2", "A", 2, "", "", ""⟩] ["A"] "A"
     (by decide) (by decide) (by decide)⟩

instance : IsTotal (String × CoreBid) (fun e f => f.2.price ≤ e.2.price) :=
  ⟨fun a b => le_total b.2.price a.2.price⟩

instance : IsTrans (String × CoreBid) (fun e f => f.2.price ≤ e.2.price) :=
  ⟨fun _ _ _ hab hbc => le_trans hbc hab⟩

lemma sortEntries_sorted (l : List (String × CoreBid)) :
    List.Sorted (fun e f => f.2.price ≤ e.2.price) (sortEntries l) :=
  List.sorted_insertionSort _ l

lemma enum_ranks_snd (l : List (String × CoreBid)) :
    (l.enum.map (fun p => (p.2.1, p.1 + 1))).map Prod.snd
      = List.range' 1 l.length := by
  rw [List.map_map]
  have h1 : (Prod.snd ∘ fun p : Nat × (String × CoreBid) => (p.2.1, p.1 + 1))
      = (fun p : Nat × (String × CoreBid) => p.1 + 1) := rfl
  rw [h1]
  have h2 : (fun p : Nat × (String × CoreBid) => p.1 + 1)
      = ((fun i => i + 1) ∘ Prod.fst) := rfl
  rw [h2, ← List.map_map, List.enum_map_fst, List.range'_eq_map_range]
  apply List.map_congr_left
  intro a _
  omega

lemma ranks_agree_aux (l : List (String × CoreBid)) :
    ∀ (i : Nat) (b : String), (l.map Prod.fst).Nodup → b ∈ l.map Prod.fst →
      mapFind ((List.enumFrom i l).map (fun p => (p.2.1, p.1 + 1))) b
        = some (i + (l.map Prod.fst).indexOf b + 1) := by
  induction l with
  | nil =>
    intro i b _ hb
    cases hb
  | cons hd tl ih =>
    intro i b hnd hb
    rw [List.enumFrom_cons]
    simp only [List.map_cons] at hnd hb ⊢
    rw [mapFind_cons]
    by_cases hh : hd.1 = b
    · rw [if_pos hh, List.indexOf_cons_eq _ hh]
    · rw [if_neg hh]
      have hbtl : b ∈ tl.map Prod.fst := by
        rcases List.mem_cons.mp hb with he | h
        · exact absurd he.symm hh
        · exact h
      rw [ih (i + 1) b (List.nodup_cons.mp hnd).2 hbtl,
        List.indexOf_cons_ne _ hh]
      congr 1
      omega

/-- C3: for every non-empty bid list (and any map iteration order), the
three outputs of `RankCoreBids` have size equal to the number of distinct
bidders, the rank values are exactly 1..N in sorted order (hence a
permutation of 1..N), `Ranks[b] = 1 + index of b in SortedBidders`, and
successive retained prices are non-increasing. -/
theorem rank_result_shape (bids : List CoreBid) (ord : List String)
    (hne : bids ≠ []) (hord : ValidOrder bids ord) :
    (RankCoreBidsWith bids ord).ranks.length
        = (bids.map (fun x => x.bidder)).toFinset.card
    ∧ (RankCoreBidsWith bids ord).highestBids.length
        = (bids.map (fun x => x.bidder)).toFinset.card
    ∧ (RankCoreBidsWith bids ord).sortedBidders.length
        = (bids.map (fun x => x.bidder)).toFinset.card
    ∧ (RankCoreBidsWith bids ord).ranks.map Prod.snd
        = List.range' 1 (bids.map (fun x => x.bidder)).toFinset.card
    ∧ (∀ b ∈ (RankCoreBidsWith bids ord).sortedBidders,
        mapFind (RankCoreBidsWith bids ord).ranks b
          = some ((RankCoreBidsWith bids ord).sortedBidders.indexOf b + 1))
    ∧ ((RankCoreBidsWith bids ord).highestBids.map
        (fun e => e.2.price)).Chain' (fun a b => b ≤ a) := by
  have hkeyset : (bidderKeys bids).toFinset
      = (bids.map (fun x => x.bidder)).toFinset := by
    apply Finset.ext
    intro x
    simp only [List.mem_toFinset]
    exact mem_bidderKeys bids x
  have hcard : (bidderKeys bids).length
      = (bids.map (fun x => x.bidder)).toFinset.card := by
    rw [← List.toFinset_card_of_nodup (buildBidderMap_keys_nodup bids),
      hkeyset]
  have hordlen : ord.length = (bidderKeys bids).length :=
    hord.length_eq
  have hekeys := entriesFor_keys _ ord (validOrder_mem_isSome bids ord hord)
  have helen : (entriesFor (buildBidderMap bids) ord).length = ord.length := by
    have h := congrArg List.length hekeys
    rw [List.length_map] at h
    exact h
  have hslen : (sortEntries (entriesFor (buildBidderMap bids) ord)).length
      = (bids.map (fun x => x.bidder)).toFinset.card := by
    rw [(sortEntries_perm _).length_eq, helen, hordlen, hcard]
  rw [RankCoreBidsWith_eq bids ord hne]
  refine ⟨?_, ?_, ?_, ?_, ?_, ?_⟩
  · simp only [List.length_map, List.enum_length]
    exact hslen
  · exact hslen
  · rw [List.length_map]
    exact hslen
  · rw [enum_ranks_snd, hslen]
  · intro b hb
    have hnd := entries_nodup_keys bids ord hord
    have hb' : b ∈ (sortEntries (entriesFor (buildBidderMap bids) ord)).map
        Prod.fst := hb
    have hagree := ranks_agree_aux
      (sortEntries (entriesFor (buildBidderMap bids) ord)) 0 b hnd hb'
    show mapFind
        ((sortEntries (entriesFor (buildBidderMap bids) ord)).enum.map
          (fun p => (p.2.1, p.1 + 1))) b
      = some (((sortEntries (entriesFor (buildBidderMap bids) ord)).map
          Prod.fst).indexOf b + 1)
    rw [show (sortEntries (entriesFor (buildBidderMap bids) ord)).enum
        = List.enumFrom 0 (sortEntries (entriesFor (buildBidderMap bids) ord))
        from rfl]
    rw [hagree]
    congr 1
    omega
  · have hsorted := sortEntries_sorted (entriesFor (buildBidderMap bids) ord)
    have hpw : ((sortEntries (entriesFor (buildBidderMap bids) ord)).map
        (fun e => e.2.price)).Pairwise (fun a b => b ≤ a) :=
      List.pairwise_map.mpr hsorted
    exact hpw.chain'

/-- Witness for C3 at the three-bidder example from the repository's test. -/
theorem rank_result_shape_witness :
    ([⟨"bid_a", "a", 5, "", "", ""⟩, ⟨"bid_b", "b", 4, "", "", ""⟩,
        ⟨"bid_c", "c", 6, "", "", ""⟩] : List CoreBid) ≠ []
    ∧ ValidOrder [⟨"bid_a", "a", 5, "", "", ""⟩, ⟨"bid_b", "b", 4, "", "", ""⟩,
        ⟨"bid_c", "c", 6, "", "", ""⟩] ["a", "b", "c"]
    ∧ (RankCoreBidsWith [⟨"bid_a", "a", 5, "", "", ""⟩,
        ⟨"bid_b", "b", 4, "", "", ""⟩, ⟨"bid_c", "c", 6, "", "", ""⟩]
        ["a", "b", "c"]).ranks.map Prod.snd
      = List.range' 1 (([⟨"bid_a", "a", 5, "", "", ""⟩,
          ⟨"bid_b", "b", 4, "", "", ""⟩, ⟨"bid_c", "c", 6, "", "", ""⟩]
          : List CoreBid).map (fun x => x.bidder)).toFinset.card :=
  ⟨by decide, by decide,
   (rank_result_shape
     [⟨"bid_a", "a", 5, "", "", ""⟩, ⟨"bid_b", "b", 4, "", "", ""⟩,
       ⟨"bid_c", "c", 6, "", "", ""⟩] ["a", "b", "c"]
     (by decide) (by decide)).2.2.2.1⟩

/-- C9 counterexample: with two distinct bidders tied at the same retained
price, two valid map-iteration orders (both reachable at runtime, since Go
randomizes map iteration) produce different ranking results, so
`RankCoreBids` is not deterministic on tied inputs. -/
theorem rank_nondet_counterexample :
    ValidOrder [⟨"bidA", "A", 1, "", "", ""⟩, ⟨"bidB", "B", 1, "", "", ""⟩]
      ["A", "B"]
    ∧ ValidOrder [⟨"bidA", "A", 1, "", "", ""⟩, ⟨"bidB", "B", 1, "", "", ""⟩]
      ["B", "A"]
    ∧ RankCoreBidsWith
        [⟨"bidA", "A", 1, "", "", ""⟩, ⟨"bidB", "B", 1, "", "", ""⟩]
        ["A", "B"]
      ≠ RankCoreBidsWith
        [⟨"bidA", "A", 1, "", "", ""⟩, ⟨"bidB", "B", 1, "", "", ""⟩]
        ["B", "A"] := by
  refine ⟨by decide, by decide, ?_⟩
  intro h
  have := congrArg CoreRankingResult.sortedBidders h
  revert this
  decide

lemma entriesFor_skip (hd : String × CoreBid) (tl : List (String × CoreBid))
    (ord : List String) (h : hd.1 ∉ ord) :
    entriesFor (hd :: tl) ord = entriesFor tl ord := by
  apply List.filterMap_congr
  intro k hk
  rw [mapFind_cons, if_neg (fun he => h (by rw [he]; exact hk))]

lemma entriesFor_self (m : List (String × CoreBid))
    (hnd : (m.map Prod.fst).Nodup) :
    entriesFor m (m.map Prod.fst) = m := by
  induction m with
  | nil => rfl
  | cons hd tl ih =>
    simp only [List.map_cons, List.nodup_cons] at hnd
    rw [List.map_cons, entriesFor_cons, mapFind_cons, if_pos rfl]
    rw [entriesFor_skip hd tl (tl.map Prod.fst) hnd.1, ih hnd.2]
    rfl

lemma entriesFor_perm_map (bids : List CoreBid) (ord : List String)
    (hord : ValidOrder bids ord) :
    (entriesFor (buildBidderMap bids) ord).Perm (buildBidderMap bids) := by
  have h1 : (entriesFor (buildBidderMap bids) ord).Perm
      (entriesFor (buildBidderMap bids) (bidderKeys bids)) :=
    hord.filterMap _
  rw [show bidderKeys bids = (buildBidderMap bids).map Prod.fst from rfl]
    at h1
  rw [entriesFor_self (buildBidderMap bids) (buildBidderMap_keys_nodup bids)]
    at h1
  exact h1

/-- Two sorted permutations of each other whose prices are pairwise distinct
coincide. -/
lemma sorted_perm_eq_of_distinct (l1 : List (String × CoreBid)) :
    ∀ (l2 : List (String × CoreBid)), l1.Perm l2 →
    List.Sorted (fun e f => f.2.price ≤ e.2.price) l1 →
    List.Sorted (fun e f => f.2.price ≤ e.2.price) l2 →
    (l1.map (fun e => e.2.price)).Pairwise (· ≠ ·) →
    l1 = l2 := by
  induction l1 with
  | nil =>
    intro l2 hp _ _ _
    exact hp.nil_eq
  | cons e t1 ih =>
    intro l2 hp hs1 hs2 hd
    cases l2 with
    | nil => exact absurd hp.symm.nil_eq.symm (List.cons_ne_nil e t1)
    | cons f t2 =>
      by_cases hef : e = f
      · subst hef
        have hdt : (t1.map (fun e => e.2.price)).Pairwise (· ≠ ·) := by
          rw [List.map_cons] at hd
          exact (List.pairwise_cons.mp hd).2
        rw [ih t2 hp.cons_inv hs1.of_cons hs2.of_cons hdt]
      · exfalso
        have het2 : e ∈ t2 := by
          rcases List.mem_cons.mp (hp.subset (List.mem_cons_self e t1)) with
            he | h
          · exact absurd he hef
          · exact h
        have hft1 : f ∈ t1 := by
          rcases List.mem_cons.mp (hp.symm.subset (List.mem_cons_self f t2))
            with he | h
          · exact absurd he.symm hef
          · exact h
        have h1 : e.2.price ≤ f.2.price := (List.sorted_cons.mp hs2).1 e het2
        have h2 : f.2.price ≤ e.2.price := (List.sorted_cons.mp hs1).1 f hft1
        have hneq : e.2.price ≠ f.2.price := by
          rw [List.map_cons] at hd
          exact (List.pairwise_cons.mp hd).1 f.2.price
            (List.mem_map_of_mem _ hft1)
        exact hneq (le_antisymm h1 h2)

/-- C9 amended: `RankCoreBids` is deterministic whenever no two distinct
bidders tie at the same retained price — any two valid map-iteration orders
yield identical results.  (When two retained prices tie, the output order of
the tied bidders depends on Go's randomized map iteration order, per the
counterexample.) -/
theorem rank_deterministic_of_distinct_prices (bids : List CoreBid)
    (ord1 ord2 : List String) (h1 : ValidOrder bids ord1)
    (h2 : ValidOrder bids ord2)
    (hdist : ((buildBidderMap bids).map (fun e => e.2.price)).Pairwise
      (· ≠ ·)) :
    RankCoreBidsWith bids ord1 = RankCoreBidsWith bids ord2 := by
  by_cases hne : bids = []
  · rw [hne]
    rfl
  · have hperm : (sortEntries (entriesFor (buildBidderMap bids) ord1)).Perm
        (sortEntries (entriesFor (buildBidderMap bids) ord2)) := by
      refine (sortEntries_perm _).trans (List.Perm.trans ?_
        (sortEntries_perm _).symm)
      exact (entriesFor_perm_map bids ord1 h1).trans
        (entriesFor_perm_map bids ord2 h2).symm
    have hd1 : ((sortEntries (entriesFor (buildBidderMap bids) ord1)).map
        (fun e => e.2.price)).Pairwise (· ≠ ·) := by
      have hperm2 := ((sortEntries_perm
        (entriesFor (buildBidderMap bids) ord1)).trans
        (entriesFor_perm_map bids ord1 h1)).map (f := fun e => e.2.price)
      exact (List.Perm.pairwise_iff (fun hxy => Ne.symm hxy) hperm2).mpr hdist
    have heq := sorted_perm_eq_of_distinct _ _ hperm
      (sortEntries_sorted _) (sortEntries_sorted _) hd1
    rw [RankCoreBidsWith_eq bids ord1 hne, RankCoreBidsWith_eq bids ord2 hne,
      heq]

/-- Witness for the amended C9: two bidders at distinct prices; both
iteration orders give the same result. -/
theorem rank_deterministic_of_distinct_prices_witness :
    ValidOrder [⟨"bid_a", "a", 5, "", "", ""⟩, ⟨"bid_b", "b", 4, "", "", ""⟩]
      ["a", "b"]
    ∧ ValidOrder [⟨"bid_a", "a", 5, "", "", ""⟩, ⟨"bid_b", "b", 4, "", "", ""⟩]
      ["b", "a"]
    ∧ ((buildBidderMap [⟨"bid_a", "a", 5, "", "", ""⟩,
        ⟨"bid_b", "b", 4, "", "", ""⟩]).map (fun e => e.2.price)).Pairwise
        (· ≠ ·)
    ∧ RankCoreBidsWith
        [⟨"bid_a", "a", 5, "", "", ""⟩, ⟨"bid_b", "b", 4, "", "", ""⟩]
        ["a", "b"]
      = RankCoreBidsWith
        [⟨"bid_a", "a", 5, "", "", ""⟩, ⟨"bid_b", "b", 4, "", "", ""⟩]
        ["b", "a"] :=
  ⟨by decide, by decide, by decide,
   rank_deterministic_of_distinct_prices
     [⟨"bid_a", "a", 5, "", "", ""⟩, ⟨"bid_b", "b", 4, "", "", ""⟩]
     ["a", "b"] ["b", "a"] (by decide) (by decide) (by decide)⟩

/-! Bid decryption pipeline and replay filter.

The data types `EncryptedBidPrice` and `DecryptedBidPayload` come from the
repository's `core` package.  The functions `decryptAllBids` and
`filterBidsByConsumedTokens` belong to the enclave package but their source
file is not present under src/ (only their tests call them); they are
modelled from the specification, sections 4.3 (BidDecryptionPipeline) and
4.4 (ReplayFilter). -/

/-- core.EncryptedBidPrice: base64-encoded RSA-wrapped AES key, AES-GCM
ciphertext, and GCM nonce. -/
structure EncryptedBidPrice where
  aesKeyEncrypted : String
  encryptedPayload : String
  nonce : String
deriving Repr, DecidableEq

/-- enclaveapi.EncryptedCoreBid: a core bid plus an optional encrypted
price. -/
structure EncryptedCoreBid where
  coreBid : CoreBid
  encryptedPrice : Option EncryptedBidPrice
deriving Repr, DecidableEq

/-- core.DecryptedBidPayload: price in USD plus an optional single-use
auction token (Go `omitempty` string; empty string means absent). -/
structure DecryptedBidPayload where
  price : Rat
  auctionToken : String := ""
deriving Repr, DecidableEq

/-- Modelled from the spec: the per-bid record carried from the decryption
stage to the filter stage (`decryptedData` in the tests) — the bid with its
resolved price, plus the auction token carried forward from the decrypted
payload (empty when none). -/
structure DecryptedBidData where
  bid : CoreBid
  auctionToken : String := ""
deriving Repr, DecidableEq

/-- Modelled from the spec: an ExclusionRecord — bid identifier, bidder
identifier, and a reason code, produced whenever a bid is dropped. -/
structure ExclusionRecord where
  bidID : String
  bidder : String
  reason : String
deriving Repr, DecidableEq

/-- Modelled from the spec: a per-bid error report of the decryption stage,
carrying the failed bid's identifier and bidder. -/
structure BidErrorReport where
  bidID : String
  bidder : String
deriving Repr, DecidableEq

/-- Modelled from the spec: the key manager, as seen by the pipeline, is
the capability to decrypt an `EncryptedBidPrice` with the enclave private
key and parse the plaintext as a `DecryptedBidPayload`; `none` models any
decryption or parsing failure (the missing source is the enclave
`KeyManager` type and the per-bid decrypt helper). -/
abbrev KeyManagerModel := EncryptedBidPrice → Option DecryptedBidPayload

/-- Modelled from the spec: `decryptAllBids` (spec 4.3).  Per input bid, in
order: with no key manager every bid passes through with its existing
plaintext price; a bid without an encrypted price passes through; a bid
whose encrypted price fails to decrypt yields one exclusion record and one
error report and processing continues; a successfully decrypted bid has its
price overwritten by the decrypted price and carries the payload's auction
token forward. -/
def decryptAllBids (bids : List EncryptedCoreBid)
    (km : Option KeyManagerModel) :
    List DecryptedBidData × List ExclusionRecord × List BidErrorReport :=
  match bids with
  | [] => ([], [], [])
  | b :: rest =>
    let r := decryptAllBids rest km
    match km with
    | none => (⟨b.coreBid, ""⟩ :: r.1, r.2.1, r.2.2)
    | some kmf =>
      match b.encryptedPrice with
      | none => (⟨b.coreBid, ""⟩ :: r.1, r.2.1, r.2.2)
      | some ep =>
        match kmf ep with
        | none =>
          (r.1,
           ⟨b.coreBid.id, b.coreBid.bidder, "decryption failed"⟩ :: r.2.1,
           ⟨b.coreBid.id, b.coreBid.bidder⟩ :: r.2.2)
        | some payload =>
          (⟨{ b.coreBid with price := payload.price },
            payload.auctionToken⟩ :: r.1, r.2.1, r.2.2)

/-- Modelled from the spec: `filterBidsByConsumedTokens` (spec 4.4).  Per
bid, in order: exclude with reason "invalid price" unless the price is
strictly positive (prices are rationals here, so the spec's finiteness
requirement is automatic); exclude with reason "replay detected" when the
bid carries a token that is in the consumed set; otherwise admissible,
preserving input order. -/
def filterBidsByConsumedTokens (ds : List DecryptedBidData)
    (consumed : List String) : List CoreBid × List ExclusionRecord :=
  match ds with
  | [] => ([], [])
  | d :: rest =>
    let r := filterBidsByConsumedTokens rest consumed
    if ¬ (0 < d.bid.price) then
      (r.1, ⟨d.bid.id, d.bid.bidder, "invalid price"⟩ :: r.2)
    else if d.auctionToken ≠ "" ∧ d.auctionToken ∈ consumed then
      (r.1, ⟨d.bid.id, d.bid.bidder, "replay detected"⟩ :: r.2)
    else
      (d.bid :: r.1, r.2)

/-- A bid whose encrypted price fails to decrypt under `kmf`. -/
def failedBid (kmf : KeyManagerModel) (b : EncryptedCoreBid) : Bool :=
  match b.encryptedPrice with
  | none => false
  | some ep => (kmf ep).isNone

lemma decryptAllBids_exclusions (bids : List EncryptedCoreBid)
    (kmf : KeyManagerModel) :
    (decryptAllBids bids (some kmf)).2.1
      = (bids.filter (failedBid kmf)).map
          (fun b => ⟨b.coreBid.id, b.coreBid.bidder, "decryption failed"⟩) := by
  induction bids with
  | nil => rfl
  | cons b rest ih =>
    cases hep : b.encryptedPrice with
    | none =>
      have hf : failedBid kmf b = false := by simp [failedBid, hep]
      simp only [decryptAllBids, hep, List.filter_cons, hf]
      exact ih
    | some ep =>
      cases hk : kmf ep with
      | none =>
        have hf : failedBid kmf b = true := by simp [failedBid, hep, hk]
        simp only [decryptAllBids, hep, hk, List.filter_cons, hf, if_pos,
          List.map_cons]
        rw [ih]
      | some payload =>
        have hf : failedBid kmf b = false := by simp [failedBid, hep, hk]
        simp only [decryptAllBids, hep, hk, List.filter_cons, hf]
        exact ih

lemma decryptAllBids_errors (bids : List EncryptedCoreBid)
    (kmf : KeyManagerModel) :
    (decryptAllBids bids (some kmf)).2.2
      = (bids.filter (failedBid kmf)).map
          (fun b => ⟨b.coreBid.id, b.coreBid.bidder⟩) := by
  induction bids with
  | nil => rfl
  | cons b rest ih =>
    cases hep : b.encryptedPrice with
    | none =>
      have hf : failedBid kmf b = false := by simp [failedBid, hep]
      simp only [decryptAllBids, hep, List.filter_cons, hf]
      exact ih
    | some ep =>
      cases hk : kmf ep with
      | none =>
        have hf : failedBid kmf b = true := by simp [failedBid, hep, hk]
        simp only [decryptAllBids, hep, hk, List.filter_cons, hf, if_pos,
          List.map_cons]
        rw [ih]
      | some payload =>
        have hf : failedBid kmf b = false := by simp [failedBid, hep, hk]
        simp only [decryptAllBids, hep, hk, List.filter_cons, hf]
        exact ih

lemma decryptAllBids_length (bids : List EncryptedCoreBid)
    (kmf : KeyManagerModel) :
    (decryptAllBids bids (some kmf)).1.length
      + (decryptAllBids bids (some kmf)).2.1.length = bids.length := by
  induction bids with
  | nil => rfl
  | cons b rest ih =>
    cases hep : b.encryptedPrice with
    | none =>
      simp only [decryptAllBids, hep, List.length_cons]
      omega
    | some ep =>
      cases hk : kmf ep with
      | none =>
        simp only [decryptAllBids, hep, hk, List.length_cons]
        omega
      | some payload =>
        simp only [decryptAllBids, hep, hk, List.length_cons]
        omega

/-- C6: for every input bid list and every key manager, the exclusion
records and error reports of `decryptAllBids` are exactly one record and
one report per failed bid, carrying that bid's identifier and bidder, in
encounter order; the batch is never aborted — every input bid is either
decrypted or excluded. -/
theorem decryptAllBids_failure_isolated (bids : List EncryptedCoreBid)
    (kmf : KeyManagerModel) :
    (decryptAllBids bids (some kmf)).2.1
      = (bids.filter (failedBid kmf)).map
          (fun b => ⟨b.coreBid.id, b.coreBid.bidder, "decryption failed"⟩)
    ∧ (decryptAllBids bids (some kmf)).2.2
      = (bids.filter (failedBid kmf)).map
          (fun b => ⟨b.coreBid.id, b.coreBid.bidder⟩)
    ∧ (decryptAllBids bids (some kmf)).1.length
        + (decryptAllBids bids (some kmf)).2.1.length = bids.length :=
  ⟨decryptAllBids_exclusions bids kmf, decryptAllBids_errors bids kmf,
   decryptAllBids_length bids kmf⟩

/-- C8: with no key manager, every bid — encrypted or not — passes through
with the plaintext price it already carries, and there are zero error
reports and zero exclusions. -/
theorem decryptAllBids_nil_keyManager (bids : List EncryptedCoreBid) :
    decryptAllBids bids none
      = (bids.map (fun b => ⟨b.coreBid, ""⟩), [], []) := by
  induction bids with
  | nil => rfl
  | cons b rest ih =>
    simp only [decryptAllBids, ih, List.map_cons]

lemma filter_admissible_pos (ds : List DecryptedBidData)
    (consumed : List String) :
    ∀ x ∈ (filterBidsByConsumedTokens ds consumed).1, 0 < x.price := by
  induction ds with
  | nil =>
    intro x hx
    cases hx
  | cons d rest ih =>
    intro x hx
    by_cases hp : ¬ (0 < d.bid.price)
    · simp only [filterBidsByConsumedTokens, if_pos hp] at hx
      exact ih x hx
    · by_cases ht : d.auctionToken ≠ "" ∧ d.auctionToken ∈ consumed
      · simp only [filterBidsByConsumedTokens, if_neg hp, if_pos ht] at hx
        exact ih x hx
      · simp only [filterBidsByConsumedTokens, if_neg hp, if_neg ht] at hx
        rcases List.mem_cons.mp hx with rfl | hx2
        · exact not_not.mp hp
        · exact ih x hx2

lemma filter_invalid_excluded (ds : List DecryptedBidData)
    (consumed : List String) :
    ∀ d ∈ ds, ¬ (0 < d.bid.price) →
      (⟨d.bid.id, d.bid.bidder, "invalid price"⟩ : ExclusionRecord)
        ∈ (filterBidsByConsumedTokens ds consumed).2 := by
  induction ds with
  | nil =>
    intro d hd
    cases hd
  | cons a rest ih =>
    intro d hd hp
    rcases List.mem_cons.mp hd with rfl | hd2
    · simp only [filterBidsByConsumedTokens, if_pos hp]
      exact List.mem_cons_self _ _
    · by_cases hpa : ¬ (0 < a.bid.price)
      · simp only [filterBidsByConsumedTokens, if_pos hpa]
        exact List.mem_cons.mpr (Or.inr (ih d hd2 hp))
      · by_cases hta : a.auctionToken ≠ "" ∧ a.auctionToken ∈ consumed
        · simp only [filterBidsByConsumedTokens, if_neg hpa, if_pos hta]
          exact List.mem_cons.mpr (Or.inr (ih d hd2 hp))
        · simp only [filterBidsByConsumedTokens, if_neg hpa, if_neg hta]
          exact ih d hd2 hp

/-- C7: a decrypted bid whose price is not strictly positive is excluded by
the filter stage with reason "invalid price" and never appears in the
admissible set, while the decryption stage reports zero errors when every
encrypted bid decrypts successfully (a negative-price payload still
decrypts). -/
theorem invalid_price_excluded_not_errored (bids : List EncryptedCoreBid)
    (kmf : KeyManagerModel) (consumed : List String) :
    (∀ d ∈ (decryptAllBids bids (some kmf)).1, ¬ (0 < d.bid.price) →
      (⟨d.bid.id, d.bid.bidder, "invalid price"⟩ : ExclusionRecord)
        ∈ (filterBidsByConsumedTokens (decryptAllBids bids (some kmf)).1
            consumed).2)
    ∧ (∀ x ∈ (filterBidsByConsumedTokens (decryptAllBids bids (some kmf)).1
          consumed).1, 0 < x.price)
    ∧ ((∀ b ∈ bids, failedBid kmf b = false) →
        (decryptAllBids bids (some kmf)).2.2 = []) := by
  refine ⟨?_, filter_admissible_pos _ consumed, ?_⟩
  · intro d hd hp
    exact filter_invalid_excluded _ consumed d hd hp
  · intro hall
    rw [decryptAllBids_errors bids kmf]
    rw [List.filter_eq_nil_iff.mpr (fun b hb => by rw [hall b hb]; exact
      Bool.false_ne_true)]
    rfl

/-- Witness for C6: one bid whose encrypted price fails to decrypt yields
exactly one exclusion record and one error report with its id and bidder. -/
theorem decryptAllBids_failure_isolated_witness :
    (decryptAllBids
        [⟨⟨"bid1", "bidder1", 0, "", "", ""⟩, some ⟨"x", "y", "z"⟩⟩]
        (some (fun _ => none))).2.1
      = [⟨"bid1", "bidder1", "decryption failed"⟩]
    ∧ (decryptAllBids
        [⟨⟨"bid1", "bidder1", 0, "", "", ""⟩, some ⟨"x", "y", "z"⟩⟩]
        (some (fun _ => none))).2.2
      = [⟨"bid1", "bidder1"⟩] :=
  ⟨(decryptAllBids_failure_isolated
      [⟨⟨"bid1", "bidder1", 0, "", "", ""⟩, some ⟨"x", "y", "z"⟩⟩]
      (fun _ => none)).1.trans (by decide),
   (decryptAllBids_failure_isolated
      [⟨⟨"bid1", "bidder1", 0, "", "", ""⟩, some ⟨"x", "y", "z"⟩⟩]
      (fun _ => none)).2.1.trans (by decide)⟩

/-- Witness for C7: a bid decrypting to price -2 is excluded as
"invalid price" by the filter stage. -/
theorem invalid_price_excluded_not_errored_witness :
    (⟨"bid1", "bidder1", "invalid price"⟩ : ExclusionRecord)
      ∈ (filterBidsByConsumedTokens
          (decryptAllBids
            [⟨⟨"bid1", "bidder1", 0, "", "", ""⟩, some ⟨"k", "p", "n"⟩⟩]
            (some (fun _ => some ⟨(-2 : Rat), ""⟩))).1 []).2 :=
  (invalid_price_excluded_not_errored
    [⟨⟨"bid1", "bidder1", 0, "", "", ""⟩, some ⟨"k", "p", "n"⟩⟩]
    (fun _ => some ⟨(-2 : Rat), ""⟩) []).1
    ⟨⟨"bid1", "bidder1", (-2 : Rat), "", "", ""⟩, ""⟩ (by decide) (by decide)

/-! Hybrid encryption (enclave/crypto.go `DecryptHybrid`,
enclave/testcryptoutils.go `EncryptHybrid`).

Byte strings are `List Nat` with every element `< 256` (`IsBytes`).  The
AES-256 block permutation and the OAEP hash (SHA-256 in the source) are
taken as parameters: the round-trip property holds for every block function
and every hash function, which subsumes the concrete ones.  All other
structure — base64, AES-GCM counter mode and tag, RSA-OAEP padding and
modular exponentiation — is implemented concretely. -/

/-- Every element is a byte value. -/
def IsBytes (l : List Nat) : Prop := ∀ x ∈ l, x < 256

instance (l : List Nat) : Decidable (IsBytes l) := by
  unfold IsBytes; infer_instance

/-- The standard base64 alphabet (RFC 4648), as used by
`encoding/base64.StdEncoding`. -/
def b64Alphabet : List Char :=
  "ABCDEFGHIJKLMNOPQRSTUVWXYZabcdefghijklmnopqrstuvwxyz0123456789+/".toList

def b64EncChar (s : Nat) : Char := b64Alphabet.getD s 'A'

def b64DecChar (c : Char) : Option Nat :=
  let i := b64Alphabet.indexOf c
  if i < 64 then some i else none

/-- `base64.StdEncoding.EncodeToString`: encode bytes in groups of three,
padding the final group with `=`. -/
def b64Encode : List Nat → List Char
  | [] => []
  | [b1] => [b64EncChar (b1 / 4), b64EncChar (b1 % 4 * 16), '=', '=']
  | [b1, b2] => [b64EncChar (b1 / 4), b64EncChar (b1 % 4 * 16 + b2 / 16),
      b64EncChar (b2 % 16 * 4), '=']
  | b1 :: b2 :: b3 :: rest =>
      b64EncChar (b1 / 4) :: b64EncChar (b1 % 4 * 16 + b2 / 16) ::
      b64EncChar (b2 % 16 * 4 + b3 / 64) :: b64EncChar (b3 % 64) ::
      b64Encode rest

/-- `base64.StdEncoding.DecodeString`: decode four characters at a time;
`=` padding may only close the final quartet; any malformed input fails. -/
def b64Decode : List Char → Option (List Nat)
  | [] => some []
  | c1 :: c2 :: c3 :: c4 :: rest => do
      let s1 ← b64DecChar c1
      let s2 ← b64DecChar c2
      if c3 = '=' then
        if c4 = '=' ∧ rest = [] then pure [s1 * 4 + s2 / 16] else none
      else do
        let s3 ← b64DecChar c3
        if c4 = '=' then
          if rest = [] then pure [s1 * 4 + s2 / 16, s2 % 16 * 16 + s3 / 4]
          else none
        else do
          let s4 ← b64DecChar c4
          let bs ← b64Decode rest
          pure ((s1 * 4 + s2 / 16) :: (s2 % 16 * 16 + s3 / 4) ::
            (s3 % 4 * 64 + s4) :: bs)
  | _ => none

lemma b64DecChar_encChar : ∀ s : Nat, s < 64 →
    b64DecChar (b64EncChar s) = some s := by decide

lemma b64EncChar_ne_pad : ∀ s : Nat, s < 64 → b64EncChar s ≠ '=' := by decide

lemma b64_roundtrip_aux :
    ∀ (n : Nat) (bs : List Nat), bs.length ≤ n → IsBytes bs →
      b64Decode (b64Encode bs) = some bs := by
  intro n
  induction n with
  | zero =>
    intro bs h _
    rw [List.length_eq_zero.mp (Nat.le_zero.mp h)]
    rfl
  | succ kk ih =>
    intro bs hlen hb
    match bs with
    | [] => rfl
    | [b1] =>
      have h1 : b1 < 256 := hb b1 (by simp)
      have hc1 : b64DecChar (b64EncChar (b1 / 4)) = some (b1 / 4) :=
        b64DecChar_encChar _ (by omega)
      have hc2 : b64DecChar (b64EncChar (b1 % 4 * 16)) = some (b1 % 4 * 16) :=
        b64DecChar_encChar _ (by omega)
      rw [show b64Encode [b1]
          = [b64EncChar (b1 / 4), b64EncChar (b1 % 4 * 16), '=', '=']
          from rfl]
      simp [b64Decode, hc1, hc2]
      omega
    | [b1, b2] =>
      have h1 : b1 < 256 := hb b1 (by simp)
      have h2 : b2 < 256 := hb b2 (by simp)
      have hc1 : b64DecChar (b64EncChar (b1 / 4)) = some (b1 / 4) :=
        b64DecChar_encChar _ (by omega)
      have hc2 : b64DecChar (b64EncChar (b1 % 4 * 16 + b2 / 16))
          = some (b1 % 4 * 16 + b2 / 16) := b64DecChar_encChar _ (by omega)
      have hc3 : b64DecChar (b64EncChar (b2 % 16 * 4)) = some (b2 % 16 * 4) :=
        b64DecChar_encChar _ (by omega)
      have hne : b64EncChar (b2 % 16 * 4) ≠ '=' :=
        b64EncChar_ne_pad _ (by omega)
      rw [show b64Encode [b1, b2]
          = [b64EncChar (b1 / 4), b64EncChar (b1 % 4 * 16 + b2 / 16),
             b64EncChar (b2 % 16 * 4), '='] from rfl]
      simp [b64Decode, hc1, hc2, hc3, hne]
      constructor
      · omega
      · omega
    | b1 :: b2 :: b3 :: rest =>
      have h1 : b1 < 256 := hb b1 (by simp)
      have h2 : b2 < 256 := hb b2 (by simp)
      have h3 : b3 < 256 := hb b3 (by simp)
      have hrest : IsBytes rest := fun x hx => hb x (by simp [hx])
      have hrlen : rest.length ≤ kk := by
        simp only [List.length_cons] at hlen
        omega
      have hc1 : b64DecChar (b64EncChar (b1 / 4)) = some (b1 / 4) :=
        b64DecChar_encChar _ (by omega)
      have hc2 : b64DecChar (b64EncChar (b1 % 4 * 16 + b2 / 16))
          = some (b1 % 4 * 16 + b2 / 16) := b64DecChar_encChar _ (by omega)
      have hc3 : b64DecChar (b64EncChar (b2 % 16 * 4 + b3 / 64))
          = some (b2 % 16 * 4 + b3 / 64) := b64DecChar_encChar _ (by omega)
      have hc4 : b64DecChar (b64EncChar (b3 % 64)) = some (b3 % 64) :=
        b64DecChar_encChar _ (by omega)
      have hne3 : b64EncChar (b2 % 16 * 4 + b3 / 64) ≠ '=' :=
        b64EncChar_ne_pad _ (by omega)
      have hne4 : b64EncChar (b3 % 64) ≠ '=' :=
        b64EncChar_ne_pad _ (by omega)
      rw [show b64Encode (b1 :: b2 :: b3 :: rest)
          = b64EncChar (b1 / 4) :: b64EncChar (b1 % 4 * 16 + b2 / 16) ::
            b64EncChar (b2 % 16 * 4 + b3 / 64) :: b64EncChar (b3 % 64) ::
            b64Encode rest from rfl]
      simp [b64Decode, hc1, hc2, hc3, hc4, hne3, hne4,
        ih rest hrlen hrest]
      refine ⟨by omega, by omega, by omega⟩

/-- base64 round-trip: decoding an encoding recovers the bytes exactly. -/
lemma b64_roundtrip (bs : List Nat) (hb : IsBytes bs) :
    b64Decode (b64Encode bs) = some bs :=
  b64_roundtrip_aux bs.length bs (le_refl _) hb

/-- Bytewise XOR of two byte strings (length of the shorter). -/
def xorBytes (a b : List Nat) : List Nat := List.zipWith Nat.xor a b

lemma xor_xor_cancel (x y : Nat) : Nat.xor (Nat.xor x y) y = x := by
  show (x ^^^ y) ^^^ y = x
  rw [Nat.xor_assoc, Nat.xor_self, Nat.xor_zero]

lemma xorBytes_cancel : ∀ (a b : List Nat), a.length ≤ b.length →
    xorBytes (xorBytes a b) b = a := by
  intro a
  induction a with
  | nil => intro b _; cases b <;> rfl
  | cons x a2 ih =>
    intro b hlen
    cases b with
    | nil => simp at hlen
    | cons y b2 =>
      simp only [xorBytes, List.zipWith_cons_cons]
      rw [xor_xor_cancel]
      have := ih b2 (by simpa using hlen)
      simp only [xorBytes] at this
      rw [this]

lemma xorBytes_length (a b : List Nat) :
    (xorBytes a b).length = min a.length b.length := by
  simp [xorBytes]

lemma xorBytes_isBytes (a b : List Nat) (ha : IsBytes a) (hb : IsBytes b) :
    IsBytes (xorBytes a b) := by
  intro x hx
  unfold xorBytes at hx
  obtain ⟨i, hi, rfl⟩ : ∃ i, ∃ h : i < (List.zipWith Nat.xor a b).length,
      (List.zipWith Nat.xor a b).get ⟨i, h⟩ = x := by
    obtain ⟨n, hn⟩ := List.get_of_mem hx
    exact ⟨n.1, n.2, hn⟩
  rw [List.get_zipWith]
  have hia : i < a.length := by
    rw [List.length_zipWith] at hi
    omega
  have hib : i < b.length := by
    rw [List.length_zipWith] at hi
    omega
  have ha' : a.get ⟨i, hia⟩ < 256 := ha _ (List.get_mem a i hia)
  have hb' : b.get ⟨i, hib⟩ < 256 := hb _ (List.get_mem b i hib)
  have := Nat.xor_lt_two_pow (n := 8) (by simpa using ha') (by simpa using hb')
  simpa using this

/-- Big-endian bytes to natural number (`OS2IP`). -/
def beBytesToNat (bs : List Nat) : Nat :=
  bs.foldl (fun acc b => acc * 256 + b) 0

/-- Natural number to `k` big-endian bytes (`I2OSP`). -/
def natToBeBytes : Nat → Nat → List Nat
  | 0, _ => []
  | k + 1, m => natToBeBytes k (m / 256) ++ [m % 256]

lemma natToBeBytes_length : ∀ (k m : Nat), (natToBeBytes k m).length = k := by
  intro k
  induction k with
  | zero => intro m; rfl
  | succ k2 ih =>
    intro m
    simp only [natToBeBytes, List.length_append, ih, List.length_cons,
      List.length_nil]

lemma natToBeBytes_isBytes : ∀ (k m : Nat), IsBytes (natToBeBytes k m) := by
  intro k
  induction k with
  | zero =>
    intro m x hx
    cases hx
  | succ k2 ih =>
    intro m x hx
    simp only [natToBeBytes] at hx
    rcases List.mem_append.mp hx with h | h
    · exact ih (m / 256) x h
    · rw [List.mem_singleton.mp h]
      exact Nat.mod_lt _ (by norm_num)

lemma beBytesToNat_aux (bs : List Nat) :
    ∀ acc, bs.foldl (fun a b => a * 256 + b) acc
      = acc * 256 ^ bs.length + beBytesToNat bs := by
  induction bs with
  | nil =>
    intro acc
    simp [beBytesToNat]
  | cons b tl ih =>
    intro acc
    simp only [List.foldl_cons]
    rw [ih (acc * 256 + b)]
    rw [show beBytesToNat (b :: tl)
        = (0 * 256 + b) * 256 ^ tl.length + beBytesToNat tl from by
      unfold beBytesToNat
      rw [List.foldl_cons, ih (0 * 256 + b)]
      rfl]
    simp only [List.length_cons, pow_succ]
    ring

lemma beBytesToNat_cons (b : Nat) (bs : List Nat) :
    beBytesToNat (b :: bs) = b * 256 ^ bs.length + beBytesToNat bs := by
  unfold beBytesToNat
  rw [List.foldl_cons, beBytesToNat_aux]
  simp [beBytesToNat]

lemma beBytesToNat_lt : ∀ (bs : List Nat), IsBytes bs →
    beBytesToNat bs < 256 ^ bs.length := by
  intro bs
  induction bs with
  | nil =>
    intro _
    simp [beBytesToNat]
  | cons b tl ih =>
    intro hb
    rw [beBytesToNat_cons]
    have h1 : b < 256 := hb b (by simp)
    have h2 : beBytesToNat tl < 256 ^ tl.length :=
      ih (fun x hx => hb x (by simp [hx]))
    have h3 : b * 256 ^ tl.length ≤ 255 * 256 ^ tl.length :=
      Nat.mul_le_mul_right _ (by omega)
    simp only [List.length_cons, pow_succ]
    calc b * 256 ^ tl.length + beBytesToNat tl
        < b * 256 ^ tl.length + 256 ^ tl.length := by omega
      _ ≤ 255 * 256 ^ tl.length + 256 ^ tl.length := by omega
      _ = 256 ^ tl.length * 256 := by ring

lemma beBytesToNat_append_one (bs : List Nat) (b : Nat) :
    beBytesToNat (bs ++ [b]) = beBytesToNat bs * 256 + b := by
  unfold beBytesToNat
  rw [List.foldl_append]
  rfl

lemma natToBeBytes_beBytesToNat : ∀ (bs : List Nat), IsBytes bs →
    natToBeBytes bs.length (beBytesToNat bs) = bs := by
  intro bs
  induction bs using List.reverseRecOn with
  | nil => intro _; rfl
  | append_singleton init b ih =>
    intro hb
    have hbinit : IsBytes init := fun x hx => hb x (by simp [hx])
    have hblast : b < 256 := hb b (by simp)
    rw [beBytesToNat_append_one, List.length_append]
    simp only [List.length_cons, List.length_nil]
    rw [show init.length + (0 + 1) = init.length + 1 by omega]
    simp only [natToBeBytes]
    have hdiv : (beBytesToNat init * 256 + b) / 256 = beBytesToNat init := by
      omega
    have hmod : (beBytesToNat init * 256 + b) % 256 = b := by
      omega
    rw [hdiv, hmod, ih hbinit]

lemma beBytesToNat_natToBeBytes : ∀ (k m : Nat), m < 256 ^ k →
    beBytesToNat (natToBeBytes k m) = m := by
  intro k
  induction k with
  | zero =>
    intro m hm
    simp only [pow_zero, Nat.lt_one_iff] at hm
    rw [hm]
    rfl
  | succ k2 ih =>
    intro m hm
    simp only [natToBeBytes]
    rw [beBytesToNat_append_one, ih (m / 256) (by
      rw [pow_succ] at hm
      omega)]
    omega

/-- A keyed 128-bit block function (the AES-256 block cipher core in the
source; the round-trip holds for every block function). -/
abbrev BlockFn := List Nat → List Nat → List Nat

/-- Increment the last 32 bits (big-endian) of a 16-byte counter block. -/
def inc32 (block : List Nat) : List Nat :=
  block.take 12
    ++ natToBeBytes 4 ((beBytesToNat (block.drop 12) + 1) % 2 ^ 32)

/-- CTR keystream blocks `E(K, icb), E(K, inc32 icb), ...`. -/
def gcmKeystream (E : BlockFn) (key : List Nat) : List Nat → Nat → List Nat
  | _, 0 => []
  | icb, n + 1 => E key icb ++ gcmKeystream E key (inc32 icb) n

/-- GF(2^128) multiplication as specified for GHASH (NIST SP 800-38D,
bit-reflected representation, reduction polynomial 0xE1·2^120). -/
def gmul (x y : Nat) : Nat :=
  ((List.range 128).foldl (fun zv i =>
    (if x.testBit (127 - i) then zv.1 ^^^ zv.2 else zv.1,
     if zv.2 % 2 = 1 then (zv.2 >>> 1) ^^^ (0xE1 <<< 120) else zv.2 >>> 1))
    ((0 : Nat), y)).1

/-- GHASH compression over 16-byte blocks. -/
def ghashBlocks (h : Nat) : Nat → List (List Nat) → Nat
  | acc, [] => acc
  | acc, b :: rest => ghashBlocks h (gmul (acc ^^^ beBytesToNat b) h) rest

/-- Split a byte string into 16-byte chunks (fuel keeps the recursion
structural so that the kernel can evaluate it). -/
def chunks16Aux : Nat → List Nat → List (List Nat)
  | 0, _ => []
  | _, [] => []
  | fuel + 1, bs => bs.take 16 :: chunks16Aux fuel (bs.drop 16)

def chunks16 (bs : List Nat) : List (List Nat) := chunks16Aux bs.length bs

/-- The GCM authentication tag over ciphertext `ct` with no AAD, 12-byte
nonce path (`J0 = nonce ‖ 0^31 ‖ 1`). -/
def gcmTag (E : BlockFn) (key nonce ct : List Nat) : List Nat :=
  let h := beBytesToNat (E key (List.replicate 16 0))
  let j0 := nonce ++ [0, 0, 0, 1]
  let padded := ct ++ List.replicate ((16 - ct.length % 16) % 16) 0
  let lenBlock := natToBeBytes 8 0 ++ natToBeBytes 8 (ct.length * 8)
  let s := ghashBlocks h 0 (chunks16 (padded ++ lenBlock))
  xorBytes (natToBeBytes 16 s) (E key j0)

/-- `cipher.AEAD.Seal` for AES-GCM: CTR encryption starting at
`inc32(J0)`, then the tag appended. -/
def gcmSeal (E : BlockFn) (key nonce pt : List Nat) : List Nat :=
  let j0 := nonce ++ [0, 0, 0, 1]
  let ks := gcmKeystream E key (inc32 j0) ((pt.length + 15) / 16)
  let ct := xorBytes pt (ks.take pt.length)
  ct ++ gcmTag E key nonce ct

/-- `cipher.AEAD.Open` for AES-GCM: reject short inputs, check the tag,
then decrypt; authentication failure yields an error (`none`). -/
def gcmOpen (E : BlockFn) (key nonce data : List Nat) : Option (List Nat) :=
  if data.length < 16 then none
  else
    let ct := data.take (data.length - 16)
    let tag := data.drop (data.length - 16)
    if tag = gcmTag E key nonce ct then
      let j0 := nonce ++ [0, 0, 0, 1]
      let ks := gcmKeystream E key (inc32 j0) ((ct.length + 15) / 16)
      some (xorBytes ct (ks.take ct.length))
    else none

lemma gcmKeystream_length (E : BlockFn) (key : List Nat)
    (hE : ∀ k b, (E k b).length = 16) :
    ∀ (n : Nat) (icb : List Nat), (gcmKeystream E key icb n).length = 16 * n := by
  intro n
  induction n with
  | zero => intro icb; rfl
  | succ k ih =>
    intro icb
    simp only [gcmKeystream, List.length_append, hE, ih]
    omega

lemma gcmKeystream_isBytes (E : BlockFn) (key : List Nat)
    (hEb : ∀ k b, IsBytes (E k b)) :
    ∀ (n : Nat) (icb : List Nat), IsBytes (gcmKeystream E key icb n) := by
  intro n
  induction n with
  | zero =>
    intro icb x hx
    cases hx
  | succ k ih =>
    intro icb x hx
    simp only [gcmKeystream] at hx
    rcases List.mem_append.mp hx with h | h
    · exact hEb key icb x h
    · exact ih (inc32 icb) x h

lemma gcmTag_length (E : BlockFn) (key nonce ct : List Nat)
    (hE : ∀ k b, (E k b).length = 16) :
    (gcmTag E key nonce ct).length = 16 := by
  unfold gcmTag
  rw [xorBytes_length, natToBeBytes_length, hE]
  rfl

lemma gcmTag_isBytes (E : BlockFn) (key nonce ct : List Nat)
    (hEb : ∀ k b, IsBytes (E k b)) :
    IsBytes (gcmTag E key nonce ct) := by
  unfold gcmTag
  exact xorBytes_isBytes _ _ (natToBeBytes_isBytes _ _) (hEb _ _)

lemma gcmSeal_ct_length (E : BlockFn) (key nonce pt : List Nat)
    (hE : ∀ k b, (E k b).length = 16) :
    (xorBytes pt ((gcmKeystream E key (inc32 (nonce ++ [0, 0, 0, 1]))
      ((pt.length + 15) / 16)).take pt.length)).length = pt.length := by
  rw [xorBytes_length, List.length_take,
    gcmKeystream_length E key hE ((pt.length + 15) / 16)]
  omega

lemma gcmOpen_append (E : BlockFn) (key nonce C T : List Nat)
    (hT : T.length = 16) (htag : T = gcmTag E key nonce C) :
    gcmOpen E key nonce (C ++ T)
      = some (xorBytes C ((gcmKeystream E key (inc32 (nonce ++ [0, 0, 0, 1]))
          ((C.length + 15) / 16)).take C.length)) := by
  unfold gcmOpen
  rw [List.length_append, hT]
  rw [if_neg (by omega)]
  simp only
  rw [show C.length + 16 - 16 = C.length from by omega]
  rw [List.take_left, List.drop_left, if_pos htag]

/-- GCM round-trip: opening a sealed message with the same key and nonce
succeeds and returns the plaintext. -/
lemma gcm_roundtrip (E : BlockFn) (key nonce pt : List Nat)
    (hE : ∀ k b, (E k b).length = 16) :
    gcmOpen E key nonce (gcmSeal E key nonce pt) = some pt := by
  have hctlen := gcmSeal_ct_length E key nonce pt hE
  have hseal : gcmSeal E key nonce pt
      = (xorBytes pt ((gcmKeystream E key (inc32 (nonce ++ [0, 0, 0, 1]))
          ((pt.length + 15) / 16)).take pt.length))
        ++ gcmTag E key nonce
          (xorBytes pt ((gcmKeystream E key (inc32 (nonce ++ [0, 0, 0, 1]))
            ((pt.length + 15) / 16)).take pt.length)) := rfl
  rw [hseal, gcmOpen_append E key nonce _ _
    (gcmTag_length E key nonce _ hE) rfl]
  rw [hctlen]
  congr 1
  apply xorBytes_cancel
  rw [List.length_take, gcmKeystream_length E key hE]
  omega

lemma gcmSeal_isBytes (E : BlockFn) (key nonce pt : List Nat)
    (hEb : ∀ k b, IsBytes (E k b)) (hpt : IsBytes pt) :
    IsBytes (gcmSeal E key nonce pt) := by
  unfold gcmSeal
  intro x hx
  rcases List.mem_append.mp hx with h | h
  · exact xorBytes_isBytes _ _ hpt
      (fun y hy => gcmKeystream_isBytes E key hEb _ _ y (List.mem_of_mem_take hy))
      x h
  · exact gcmTag_isBytes E key nonce _ hEb x h

/-- Binary modular exponentiation (`math/big.Exp`), with fuel to keep the
recursion structural. -/
def powModAux : Nat → Nat → Nat → Nat → Nat
  | 0, _, _, n => 1 % n
  | fuel + 1, b, e, n =>
    if e = 0 then 1 % n
    else
      let h := powModAux fuel (b * b % n) (e / 2) n
      if e % 2 = 1 then h * b % n else h

def powMod (b e n : Nat) : Nat := powModAux (e + 1) b e n

lemma powModAux_eq : ∀ (fuel b e n : Nat), e < fuel →
    powModAux fuel b e n = b ^ e % n := by
  intro fuel
  induction fuel with
  | zero =>
    intro b e n h
    omega
  | succ f ih =>
    intro b e n h
    by_cases he : e = 0
    · simp [powModAux, he]
    · have hlt : e / 2 < f := by omega
      simp only [powModAux, if_neg he]
      rw [ih (b * b % n) (e / 2) n hlt]
      rw [Nat.pow_mod, Nat.mod_mod_of_dvd _ (dvd_refl n)]
      rw [← Nat.pow_mod]
      have hbb : (b * b) ^ (e / 2) = b ^ (2 * (e / 2)) := by
        rw [Nat.pow_mul, pow_two]
      by_cases hodd : e % 2 = 1
      · rw [if_pos hodd, hbb]
        rw [show (b ^ (2 * (e / 2)) % n) * b % n = b ^ (2 * (e / 2)) * b % n
          from Nat.mod_mul_mod]
        rw [← pow_succ]
        congr 2
        omega
      · rw [if_neg hodd, hbb]
        congr 2
        omega

lemma powMod_eq (b e n : Nat) : powMod b e n = b ^ e % n :=
  powModAux_eq (e + 1) b e n (Nat.lt_succ_self e)

/-- Fermat-style cycle: for a prime `p`, `m ^ (1 + c*(p-1)) ≡ m (mod p)`. -/
lemma pow_prime_cycle (p m c : Nat) (hp : p.Prime) :
    m ^ (1 + c * (p - 1)) ≡ m [MOD p] := by
  by_cases hdvd : p ∣ m
  · have h1 : m ≡ 0 [MOD p] := (Nat.modEq_zero_iff_dvd).mpr hdvd
    have h2 : m ^ (1 + c * (p - 1)) ≡ 0 [MOD p] :=
      (Nat.modEq_zero_iff_dvd).mpr
        (dvd_pow hdvd (by omega))
    exact h2.trans h1.symm
  · have hcop : m.Coprime p :=
      Nat.coprime_comm.mp ((Nat.Prime.coprime_iff_not_dvd hp).mpr hdvd)
    have hcop2 : (m ^ c).Coprime p := Nat.Coprime.pow_left c hcop
    have hferm : (m ^ c) ^ (p - 1) ≡ 1 [MOD p] := by
      have := Nat.ModEq.pow_totient hcop2
      rwa [Nat.totient_prime hp] at this
    calc m ^ (1 + c * (p - 1))
        = m * (m ^ c) ^ (p - 1) := by
          rw [pow_add, pow_one, pow_mul]
      _ ≡ m * 1 [MOD p] := Nat.ModEq.mul_left m hferm
      _ = m := by ring

/-- RSA correctness: for distinct primes `p`, `q`, exponents with
`e·d ≡ 1 (mod p-1)` and `(mod q-1)` and positive product, decryption
inverts encryption on every message below the modulus. -/
lemma rsa_correct (p q e d m : Nat) (hp : p.Prime) (hq : q.Prime)
    (hpq : p ≠ q) (hedp : e * d ≡ 1 [MOD p - 1]) (hedq : e * d ≡ 1 [MOD q - 1])
    (hed1 : 1 ≤ e * d) (hm : m < p * q) :
    (m ^ e) ^ d % (p * q) = m := by
  have hdp : (p - 1) ∣ (e * d - 1) :=
    (Nat.modEq_iff_dvd' hed1).mp hedp.symm
  have hdq : (q - 1) ∣ (e * d - 1) :=
    (Nat.modEq_iff_dvd' hed1).mp hedq.symm
  obtain ⟨cp, hcp⟩ := hdp
  obtain ⟨cq, hcq⟩ := hdq
  have hep : e * d = 1 + cp * (p - 1) := by
    rw [Nat.mul_comm cp (p - 1)]
    omega
  have heq : e * d = 1 + cq * (q - 1) := by
    rw [Nat.mul_comm cq (q - 1)]
    omega
  have h1 : m ^ (e * d) ≡ m [MOD p] := by
    rw [hep]
    exact pow_prime_cycle p m cp hp
  have h2 : m ^ (e * d) ≡ m [MOD q] := by
    rw [heq]
    exact pow_prime_cycle q m cq hq
  have hcop : p.Coprime q := (Nat.coprime_primes hp hq).mpr hpq
  have hboth : m ^ (e * d) ≡ m [MOD p * q] :=
    (Nat.modEq_and_modEq_iff_modEq_mul hcop).mp ⟨h1, h2⟩
  rw [← pow_mul]
  calc m ^ (e * d) % (p * q) = m % (p * q) := hboth
    _ = m := Nat.mod_eq_of_lt hm

/-- MGF1 mask generation (RFC 8017), with the hash as a parameter. -/
def mgf1 (hash : List Nat → List Nat) (hLen : Nat) (seed : List Nat)
    (maskLen : Nat) : List Nat :=
  (((List.range ((maskLen + hLen - 1) / hLen)).map
    (fun i => hash (seed ++ natToBeBytes 4 i))).flatten).take maskLen

lemma flatten_map_length {α : Type} (f : α → List Nat) (c : Nat)
    (hf : ∀ a, (f a).length = c) :
    ∀ (l : List α), ((l.map f).flatten).length = l.length * c := by
  intro l
  induction l with
  | nil => simp
  | cons a tl ih =>
    simp only [List.map_cons, List.flatten_cons, List.length_append, hf, ih,
      List.length_cons]
    ring

lemma ceil_mul_ge (a b : Nat) (hb : 0 < b) :
    a ≤ (a + b - 1) / b * b := by
  have h1 := Nat.div_add_mod (a + b - 1) b
  have h2 := Nat.mod_lt (a + b - 1) hb
  rw [Nat.mul_comm]
  omega

lemma mgf1_length (hash : List Nat → List Nat) (hLen : Nat)
    (seed : List Nat) (maskLen : Nat)
    (hh : ∀ s, (hash s).length = hLen) (h0 : 0 < hLen) :
    (mgf1 hash hLen seed maskLen).length = maskLen := by
  unfold mgf1
  rw [List.length_take,
    flatten_map_length _ hLen (fun a => hh _) (List.range _),
    List.length_range]
  have := ceil_mul_ge maskLen hLen h0
  omega

lemma mgf1_isBytes (hash : List Nat → List Nat) (hLen : Nat)
    (seed : List Nat) (maskLen : Nat) (hhb : ∀ s, IsBytes (hash s)) :
    IsBytes (mgf1 hash hLen seed maskLen) := by
  intro x hx
  unfold mgf1 at hx
  have hx2 := List.mem_of_mem_take hx
  obtain ⟨l, hl, hxl⟩ := List.mem_flatten.mp hx2
  obtain ⟨i, _, rfl⟩ := List.mem_map.mp hl
  exact hhb _ x hxl

/-- The OAEP data block `DB = lHash ‖ PS ‖ 0x01 ‖ msg` (empty label). -/
def oaepDB (hash : List Nat → List Nat) (hLen k : Nat) (msg : List Nat) :
    List Nat :=
  hash [] ++ List.replicate (k - msg.length - 2 * hLen - 2) 0 ++ 1 :: msg

/-- The padded encoded message `EM = 0x00 ‖ maskedSeed ‖ maskedDB`. -/
def oaepEncode (hash : List Nat → List Nat) (hLen k : Nat)
    (msg seed : List Nat) : List Nat :=
  let db := oaepDB hash hLen k msg
  let maskedDB := xorBytes db (mgf1 hash hLen seed (k - hLen - 1))
  let maskedSeed := xorBytes seed (mgf1 hash hLen maskedDB hLen)
  0 :: (maskedSeed ++ maskedDB)

/-- `rsa.EncryptOAEP` with the hash as a parameter, empty label, and the
randomness `seed` made explicit: reject oversized messages, pad per OAEP,
RSA-encrypt the resulting integer, and emit `k` big-endian bytes. -/
def encryptOAEP (hash : List Nat → List Nat) (hLen k n e : Nat)
    (msg seed : List Nat) : Option (List Nat) :=
  if msg.length + 2 * hLen + 2 > k then none
  else some (natToBeBytes k
    (powMod (beBytesToNat (oaepEncode hash hLen k msg seed)) e n))

/-- Scan the data block after the label hash: skip the zero padding, expect
the 0x01 separator, return the message; anything else is a decryption
error. -/
def findSep : List Nat → Option (List Nat)
  | [] => none
  | b :: rest =>
    if b = 0 then findSep rest else if b = 1 then some rest else none

/-- Split and unmask an encoded message, verify the leading zero byte and
the label hash, and locate the separator. -/
def oaepDecode (hash : List Nat → List Nat) (hLen k : Nat) :
    List Nat → Option (List Nat)
  | [] => none
  | first :: rest =>
    let maskedSeed := rest.take hLen
    let maskedDB := rest.drop hLen
    let seed := xorBytes maskedSeed (mgf1 hash hLen maskedDB hLen)
    let db := xorBytes maskedDB (mgf1 hash hLen seed (k - hLen - 1))
    if first = 0 ∧ db.take hLen = hash [] then
      findSep (db.drop hLen)
    else none

/-- `rsa.DecryptOAEP`: structural checks, RSA decryption, then OAEP
decoding. -/
def decryptOAEP (hash : List Nat → List Nat) (hLen k n d : Nat)
    (ct : List Nat) : Option (List Nat) :=
  if ct.length > k ∨ k < 2 * hLen + 2 then none
  else oaepDecode hash hLen k
    (natToBeBytes k (powMod (beBytesToNat ct) d n))

lemma findSep_replicate (msg : List Nat) :
    ∀ (z : Nat), findSep (List.replicate z 0 ++ 1 :: msg) = some msg := by
  intro z
  induction z with
  | zero =>
    simp [findSep]
  | succ z2 ih =>
    rw [List.replicate_succ, List.cons_append]
    simp only [findSep, if_pos rfl]
    exact ih

lemma oaepDB_length (hash : List Nat → List Nat) (hLen k : Nat)
    (msg : List Nat) (hhlen : ∀ s, (hash s).length = hLen)
    (hmsg : msg.length + 2 * hLen + 2 ≤ k) :
    (oaepDB hash hLen k msg).length = k - hLen - 1 := by
  unfold oaepDB
  simp only [List.length_append, List.length_replicate, List.length_cons,
    hhlen]
  omega

lemma oaepDB_isBytes (hash : List Nat → List Nat) (hLen k : Nat)
    (msg : List Nat) (hhb : ∀ s, IsBytes (hash s)) (hmsgb : IsBytes msg) :
    IsBytes (oaepDB hash hLen k msg) := by
  unfold oaepDB
  intro x hx
  rcases List.mem_append.mp hx with h | h
  · rcases List.mem_append.mp h with h2 | h2
    · exact hhb [] x h2
    · rw [List.eq_of_mem_replicate h2]
      norm_num
  · rcases List.mem_cons.mp h with rfl | h3
    · norm_num
    · exact hmsgb x h3

lemma oaepMaskedDB_length (hash : List Nat → List Nat) (hLen k : Nat)
    (msg seed : List Nat) (hhlen : ∀ s, (hash s).length = hLen)
    (h0 : 0 < hLen) (hmsg : msg.length + 2 * hLen + 2 ≤ k) :
    (xorBytes (oaepDB hash hLen k msg)
      (mgf1 hash hLen seed (k - hLen - 1))).length = k - hLen - 1 := by
  rw [xorBytes_length, oaepDB_length hash hLen k msg hhlen hmsg,
    mgf1_length hash hLen seed _ hhlen h0]
  omega

lemma oaepMaskedSeed_length (hash : List Nat → List Nat) (hLen : Nat)
    (seed mdb : List Nat) (hhlen : ∀ s, (hash s).length = hLen)
    (h0 : 0 < hLen) (hseedlen : seed.length = hLen) :
    (xorBytes seed (mgf1 hash hLen mdb hLen)).length = hLen := by
  rw [xorBytes_length, hseedlen, mgf1_length hash hLen mdb _ hhlen h0]
  omega

lemma oaepEncode_length (hash : List Nat → List Nat) (hLen k : Nat)
    (msg seed : List Nat) (hhlen : ∀ s, (hash s).length = hLen)
    (h0 : 0 < hLen) (hmsg : msg.length + 2 * hLen + 2 ≤ k)
    (hseedlen : seed.length = hLen) :
    (oaepEncode hash hLen k msg seed).length = k := by
  unfold oaepEncode
  simp only [List.length_cons, List.length_append]
  rw [oaepMaskedSeed_length hash hLen seed _ hhlen h0 hseedlen,
    oaepMaskedDB_length hash hLen k msg seed hhlen h0 hmsg]
  omega

lemma oaepEncode_isBytes (hash : List Nat → List Nat) (hLen k : Nat)
    (msg seed : List Nat) (hhb : ∀ s, IsBytes (hash s))
    (hmsgb : IsBytes msg) (hseedb : IsBytes seed) :
    IsBytes (oaepEncode hash hLen k msg seed) := by
  unfold oaepEncode
  intro x hx
  rcases List.mem_cons.mp hx with rfl | h
  · norm_num
  · rcases List.mem_append.mp h with h2 | h2
    · exact xorBytes_isBytes _ _ hseedb
        (mgf1_isBytes hash hLen _ _ hhb) x h2
    · exact xorBytes_isBytes _ _
        (oaepDB_isBytes hash hLen k msg hhb hmsgb)
        (mgf1_isBytes hash hLen _ _ hhb) x h2

lemma oaepDecode_cons (hash : List Nat → List Nat) (hLen k : Nat)
    (first : Nat) (rest : List Nat) :
    oaepDecode hash hLen k (first :: rest)
      = if first = 0
          ∧ (xorBytes (rest.drop hLen)
              (mgf1 hash hLen
                (xorBytes (rest.take hLen)
                  (mgf1 hash hLen (rest.drop hLen) hLen))
                (k - hLen - 1))).take hLen = hash []
        then findSep ((xorBytes (rest.drop hLen)
            (mgf1 hash hLen
              (xorBytes (rest.take hLen)
                (mgf1 hash hLen (rest.drop hLen) hLen))
              (k - hLen - 1))).drop hLen)
        else none := rfl

/-- OAEP padding round-trip: decoding an encoded message recovers `msg`. -/
lemma oaep_pad_roundtrip (hash : List Nat → List Nat) (hLen k : Nat)
    (msg seed : List Nat)
    (hhlen : ∀ s, (hash s).length = hLen) (hhb : ∀ s, IsBytes (hash s))
    (h0 : 0 < hLen) (hmsg : msg.length + 2 * hLen + 2 ≤ k)
    (hseedlen : seed.length = hLen) :
    oaepDecode hash hLen k (oaepEncode hash hLen k msg seed) = some msg := by
  have hMSlen := oaepMaskedSeed_length hash hLen seed
    (xorBytes (oaepDB hash hLen k msg) (mgf1 hash hLen seed (k - hLen - 1)))
    hhlen h0 hseedlen
  show oaepDecode hash hLen k
    (0 :: (xorBytes seed (mgf1 hash hLen
        (xorBytes (oaepDB hash hLen k msg)
          (mgf1 hash hLen seed (k - hLen - 1))) hLen)
      ++ xorBytes (oaepDB hash hLen k msg)
        (mgf1 hash hLen seed (k - hLen - 1)))) = some msg
  rw [oaepDecode_cons]
  rw [List.take_left' hMSlen, List.drop_left' hMSlen]
  rw [xorBytes_cancel seed _ (by
    rw [hseedlen, mgf1_length hash hLen _ _ hhlen h0])]
  rw [xorBytes_cancel (oaepDB hash hLen k msg) _ (by
    rw [oaepDB_length hash hLen k msg hhlen hmsg,
      mgf1_length hash hLen _ _ hhlen h0])]
  rw [show oaepDB hash hLen k msg
      = hash [] ++ (List.replicate (k - msg.length - 2 * hLen - 2) 0
        ++ 1 :: msg) from by
    unfold oaepDB
    rw [List.append_assoc]]
  rw [List.take_left' (hhlen []), List.drop_left' (hhlen [])]
  rw [if_pos ⟨rfl, rfl⟩]
  exact findSep_replicate msg _

/-- OAEP + RSA round-trip, with RSA inversion as a hypothesis (discharged
by `rsa_correct` at the key level). -/
lemma oaep_roundtrip (hash : List Nat → List Nat) (hLen k n e d : Nat)
    (msg seed : List Nat)
    (hhlen : ∀ s, (hash s).length = hLen) (hhb : ∀ s, IsBytes (hash s))
    (h0 : 0 < hLen) (hmsg : msg.length + 2 * hLen + 2 ≤ k)
    (hmsgb : IsBytes msg)
    (hseedlen : seed.length = hLen) (hseedb : IsBytes seed)
    (hnlo : 256 ^ (k - 1) ≤ n) (hnhi : n ≤ 256 ^ k)
    (hrsa : ∀ m, m < n → powMod (powMod m e n) d n = m) :
    encryptOAEP hash hLen k n e msg seed
      = some (natToBeBytes k
          (powMod (beBytesToNat (oaepEncode hash hLen k msg seed)) e n))
    ∧ decryptOAEP hash hLen k n d
        (natToBeBytes k
          (powMod (beBytesToNat (oaepEncode hash hLen k msg seed)) e n))
      = some msg := by
  have hemlen := oaepEncode_length hash hLen k msg seed hhlen h0 hmsg hseedlen
  have hembytes := oaepEncode_isBytes hash hLen k msg seed hhb hmsgb hseedb
  have hk1 : 1 ≤ k := by omega
  obtain ⟨tl, hshape⟩ : ∃ tl, oaepEncode hash hLen k msg seed = 0 :: tl :=
    ⟨_, rfl⟩
  have hmlt : beBytesToNat (oaepEncode hash hLen k msg seed) < 256 ^ (k - 1) := by
    rw [hshape, beBytesToNat_cons]
    have hb : IsBytes tl := by
      intro x hx
      exact hembytes x (by rw [hshape]; exact List.mem_cons.mpr (Or.inr hx))
    have hl : tl.length = k - 1 := by
      rw [hshape] at hemlen
      simp only [List.length_cons] at hemlen
      omega
    have := beBytesToNat_lt tl hb
    rw [hl] at this
    omega
  have hmn : beBytesToNat (oaepEncode hash hLen k msg seed) < n :=
    lt_of_lt_of_le hmlt hnlo
  have hnpos : 0 < n :=
    lt_of_lt_of_le (Nat.pos_pow_of_pos _ (by norm_num)) hnlo
  have hclt : powMod (beBytesToNat (oaepEncode hash hLen k msg seed)) e n < n := by
    rw [powMod_eq]
    exact Nat.mod_lt _ hnpos
  constructor
  · unfold encryptOAEP
    rw [if_neg (by omega)]
  · unfold decryptOAEP
    rw [if_neg (by
      push_neg
      rw [natToBeBytes_length]
      omega)]
    rw [beBytesToNat_natToBeBytes k _ (lt_of_lt_of_le hclt hnhi)]
    rw [hrsa _ hmn]
    rw [show natToBeBytes k (beBytesToNat (oaepEncode hash hLen k msg seed))
        = oaepEncode hash hLen k msg seed from by
      have h := natToBeBytes_beBytesToNat (oaepEncode hash hLen k msg seed)
        hembytes
      rw [hemlen] at h
      exact h]
    exact oaep_pad_roundtrip hash hLen k msg seed hhlen hhb h0 hmsg hseedlen

/-- `HybridEncryptionResult` (enclave/testcryptoutils.go): the three
base64-encoded outputs. -/
structure HybridEncryptionResult where
  encryptedAESKey : List Char
  encryptedPayload : List Char
  nonce : List Char
deriving Repr, DecidableEq

/-- `EncryptHybrid` (enclave/testcryptoutils.go): AES-256-GCM-encrypt the
plaintext under a fresh 32-byte key with a fresh 12-byte nonce, wrap the
key with RSA-OAEP, and base64-encode all three outputs.  The random inputs
(`aesKey`, `nonceBytes`, and OAEP's internal `oaepSeed`) are explicit
parameters. -/
def EncryptHybrid (E : BlockFn) (hash : List Nat → List Nat)
    (hLen k n e : Nat) (plaintext aesKey nonceBytes oaepSeed : List Nat) :
    Option HybridEncryptionResult := do
  let ciphertext := gcmSeal E aesKey nonceBytes plaintext
  let wrapped ← encryptOAEP hash hLen k n e aesKey oaepSeed
  pure { encryptedAESKey := b64Encode wrapped
         encryptedPayload := b64Encode ciphertext
         nonce := b64Encode nonceBytes }

/-- `DecryptHybrid` (enclave/crypto.go): base64-decode the three inputs,
unwrap the AES key with RSA-OAEP under the private key, validate that the
key is exactly 32 bytes, build AES-256-GCM, validate that the nonce has the
cipher's nonce size (12), then decrypt and authenticate.  Every failure
(decode error, unwrap error, bad key length, bad nonce length,
authentication error) returns `none`. -/
def DecryptHybrid (E : BlockFn) (hash : List Nat → List Nat)
    (hLen k n d : Nat)
    (encryptedAESKey encryptedPayload nonceB64 : List Char) :
    Option (List Nat) := do
  let encryptedAESKeyBytes ← b64Decode encryptedAESKey
  let encryptedPayloadBytes ← b64Decode encryptedPayload
  let nonceBytes ← b64Decode nonceB64
  let aesKey ← decryptOAEP hash hLen k n d encryptedAESKeyBytes
  if aesKey.length ≠ 32 then none
  else if nonceBytes.length ≠ 12 then none
  else gcmOpen E aesKey nonceBytes encryptedPayloadBytes

/-- C5: for every byte string `x` (arbitrary length, including empty) and
every well-formed RSA key pair, `DecryptHybrid` applied to the three
outputs of `EncryptHybrid` with the matching private key succeeds and
returns exactly `x`.  The AES block function and the OAEP hash are
universally quantified (covering AES-256 and SHA-256), the key pair is any
`n = p·q` with distinct primes and `e·d ≡ 1` modulo `p-1` and `q-1`, and
`k` is the modulus byte size. -/
theorem hybrid_roundtrip
    (E : BlockFn) (hash : List Nat → List Nat) (hLen k p q e d : Nat)
    (x aesKey nonceBytes oaepSeed : List Nat)
    (hElen : ∀ kk b, (E kk b).length = 16)
    (hEb : ∀ kk b, IsBytes (E kk b))
    (hhlen : ∀ s, (hash s).length = hLen)
    (hhb : ∀ s, IsBytes (hash s))
    (h0 : 0 < hLen)
    (hp : p.Prime) (hq : q.Prime) (hpq : p ≠ q)
    (hedp : e * d ≡ 1 [MOD p - 1]) (hedq : e * d ≡ 1 [MOD q - 1])
    (hed1 : 1 ≤ e * d)
    (hklo : 256 ^ (k - 1) ≤ p * q) (hkhi : p * q ≤ 256 ^ k)
    (hksz : 2 * hLen + 2 + 32 ≤ k)
    (hx : IsBytes x)
    (haes : aesKey.length = 32) (haesb : IsBytes aesKey)
    (hnonce : nonceBytes.length = 12) (hnonceb : IsBytes nonceBytes)
    (hseed : oaepSeed.length = hLen) (hseedb : IsBytes oaepSeed) :
    ∃ res, EncryptHybrid E hash hLen k (p * q) e x aesKey nonceBytes oaepSeed
        = some res
      ∧ DecryptHybrid E hash hLen k (p * q) d
          res.encryptedAESKey res.encryptedPayload res.nonce = some x := by
  have hrsa : ∀ m, m < p * q →
      powMod (powMod m e (p * q)) d (p * q) = m := by
    intro m hm
    rw [powMod_eq, powMod_eq, ← Nat.pow_mod]
    exact rsa_correct p q e d m hp hq hpq hedp hedq hed1 hm
  have hmsg : aesKey.length + 2 * hLen + 2 ≤ k := by
    rw [haes]
    omega
  obtain ⟨henc, hdec⟩ := oaep_roundtrip hash hLen k (p * q) e d aesKey
    oaepSeed hhlen hhb h0 hmsg haesb hseed hseedb hklo hkhi hrsa
  refine ⟨⟨b64Encode (natToBeBytes k
      (powMod (beBytesToNat (oaepEncode hash hLen k aesKey oaepSeed)) e
        (p * q))),
    b64Encode (gcmSeal E aesKey nonceBytes x),
    b64Encode nonceBytes⟩, ?_, ?_⟩
  · simp only [EncryptHybrid, henc, Option.some_bind]
    rfl
  · simp only
    have hWb : IsBytes (natToBeBytes k
        (powMod (beBytesToNat (oaepEncode hash hLen k aesKey oaepSeed)) e
          (p * q))) := natToBeBytes_isBytes _ _
    have hCTb : IsBytes (gcmSeal E aesKey nonceBytes x) :=
      gcmSeal_isBytes E aesKey nonceBytes x hEb hx
    simp only [DecryptHybrid, Option.bind_eq_bind, b64_roundtrip _ hWb,
      b64_roundtrip _ hCTb, b64_roundtrip _ hnonceb, Option.some_bind, hdec]
    rw [if_neg (by rw [haes]; omega), if_neg (by rw [hnonce]; omega)]
    exact gcm_roundtrip E aesKey nonceBytes x hElen

lemma zmod_pow_eq_one_of_powMod (P a t : Nat) (h1 : 1 < P)
    (h : powMod a t P = 1) : ((a : ZMod P)) ^ t = 1 := by
  haveI : NeZero P := ⟨by omega⟩
  rw [powMod_eq] at h
  have h2 : ((a ^ t % P : ℕ) : ZMod P) = ((1 : ℕ) : ZMod P) := by rw [h]
  rw [ZMod.natCast_mod, Nat.cast_pow, Nat.cast_one] at h2
  exact h2

lemma zmod_pow_ne_one_of_powMod (P a t : Nat) (h1 : 1 < P)
    (h : powMod a t P ≠ 1) : ((a : ZMod P)) ^ t ≠ 1 := by
  haveI : NeZero P := ⟨by omega⟩
  haveI : Fact (1 < P) := ⟨h1⟩
  intro hc
  apply h
  rw [powMod_eq]
  have h2 : ((a ^ t % P : ℕ) : ZMod P) = 1 := by
    rw [ZMod.natCast_mod, Nat.cast_pow]
    exact hc
  have h3 := congrArg ZMod.val h2
  rw [ZMod.val_natCast, ZMod.val_one] at h3
  rw [Nat.mod_eq_of_lt (Nat.mod_lt _ (by omega))] at h3
  exact h3

set_option maxRecDepth 40000

/-- `3·2^189 + 1` is prime (Lucas primality certificate, base 10). -/
lemma proth189_prime : Nat.Prime (3 * 2 ^ 189 + 1) := by
  have h2 : (1 : ℕ) < 3 * 2 ^ 189 + 1 := by
    have : 0 < 2 ^ 189 := Nat.pos_pow_of_pos _ (by norm_num)
    omega
  apply lucas_primality (3 * 2 ^ 189 + 1) ((10 : ℕ) : ZMod (3 * 2 ^ 189 + 1))
  · exact zmod_pow_eq_one_of_powMod _ 10 _ h2 (by decide)
  · intro r hr hdvd
    have hsub : 3 * 2 ^ 189 + 1 - 1 = 3 * 2 ^ 189 := by omega
    rw [hsub] at hdvd
    have hr23 : r = 3 ∨ r = 2 := by
      rcases (Nat.Prime.dvd_mul hr).mp hdvd with h3 | h2p
      · exact Or.inl ((Nat.prime_dvd_prime_iff_eq hr (by norm_num)).mp h3)
      · exact Or.inr ((Nat.prime_dvd_prime_iff_eq hr (by norm_num)).mp
          (hr.dvd_of_dvd_pow h2p))
    rcases hr23 with rfl | rfl
    · exact zmod_pow_ne_one_of_powMod _ 10 _ h2 (by decide)
    · exact zmod_pow_ne_one_of_powMod _ 10 _ h2 (by decide)

/-- `3·2^201 + 1` is prime (Lucas primality certificate, base 10). -/
lemma proth201_prime : Nat.Prime (3 * 2 ^ 201 + 1) := by
  have h2 : (1 : ℕ) < 3 * 2 ^ 201 + 1 := by
    have : 0 < 2 ^ 201 := Nat.pos_pow_of_pos _ (by norm_num)
    omega
  apply lucas_primality (3 * 2 ^ 201 + 1) ((10 : ℕ) : ZMod (3 * 2 ^ 201 + 1))
  · exact zmod_pow_eq_one_of_powMod _ 10 _ h2 (by decide)
  · intro r hr hdvd
    have hsub : 3 * 2 ^ 201 + 1 - 1 = 3 * 2 ^ 201 := by omega
    rw [hsub] at hdvd
    have hr23 : r = 3 ∨ r = 2 := by
      rcases (Nat.Prime.dvd_mul hr).mp hdvd with h3 | h2p
      · exact Or.inl ((Nat.prime_dvd_prime_iff_eq hr (by norm_num)).mp h3)
      · exact Or.inr ((Nat.prime_dvd_prime_iff_eq hr (by norm_num)).mp
          (hr.dvd_of_dvd_pow h2p))
    rcases hr23 with rfl | rfl
    · exact zmod_pow_ne_one_of_powMod _ 10 _ h2 (by decide)
    · exact zmod_pow_ne_one_of_powMod _ 10 _ h2 (by decide)

/-- Witness for C5: a concrete run with the RSA modulus
`(3·2^189+1)·(3·2^201+1)` (k = 50 bytes), e = 5 and its inverse d, a
two-byte plaintext, and concrete key, nonce and seed randomness. -/
theorem hybrid_roundtrip_witness :
    ∃ res, EncryptHybrid (fun _ _ => List.replicate 16 0) (fun _ => [0]) 1 50
        ((3 * 2 ^ 189 + 1) * (3 * 2 ^ 201 + 1)) 5
        [104, 105] (List.replicate 32 7) (List.replicate 12 3) [9] = some res
      ∧ DecryptHybrid (fun _ _ => List.replicate 16 0) (fun _ => [0]) 1 50
          ((3 * 2 ^ 189 + 1) * (3 * 2 ^ 201 + 1))
          7713302612443153322601418043237580492106574370157405609446605
          res.encryptedAESKey res.encryptedPayload res.nonce
        = some [104, 105] :=
  hybrid_roundtrip (fun _ _ => List.replicate 16 0) (fun _ => [0]) 1 50
    (3 * 2 ^ 189 + 1) (3 * 2 ^ 201 + 1) 5
    7713302612443153322601418043237580492106574370157405609446605
    [104, 105] (List.replicate 32 7) (List.replicate 12 3) [9]
    (fun _ _ => rfl)
    (fun _ _ => (by decide : IsBytes (List.replicate 16 0)))
    (fun _ => rfl)
    (fun _ => (by decide : IsBytes [0]))
    (by decide)
    proth189_prime proth201_prime
    (by decide)
    (by decide) (by decide)
    (by decide)
    (by decide) (by decide)
    (by decide)
    (by decide)
    (by decide) (by decide)
    (by decide) (by decide)
    rfl (by decide)

end OpenAuction
